import Mathlib

/-!
Shallow embedding of the `svar-core` crate (security-questions threshold
encryption) and verification of its specification claims.

Conventions of the embedding:
* Rust `String` / `&str` become Lean `String`; byte strings become `List Nat`.
* 32-byte values (`Exactly32Bytes`, `EncryptionKey` ...) become `Nat`
  (the value of the byte string), with `Nat.xor` modelling bytewise XOR.
* `IndexSet<T>` (insertion-ordered, first-occurrence-deduplicating set)
  becomes a `List` built by `indexSetOfList`.
* Rust `Result<T, Error>` becomes `Except Error T`; functions that can
  additionally panic (`assert!`, `unwrap`, `expect`) return `POutcome T`
  with a distinguished `panicked` outcome.
* External library functions (HKDF-SHA-256 from the `hkdf` crate, the byte
  conversions of a `Secret: IsSecret` implementor, CSPRNG nonce draws) are
  parameters of the definitions that call them.
-/

set_option autoImplicit false

namespace Svar

/-- Rust `svar_core::Error` (src/crates/core/src/models/error.rs), with the
string payloads kept as `String`. -/
inductive Error where
  | InvalidQuestionsAndAnswersCount (expected found : Nat)
  | InvalidQuestionsAndSaltCount (expected found : Nat)
  | UnrelatedQuestionProvided (question : String)
  | QuestionsMustBeGreaterThanOrEqualAnswers (questions answers : Nat)
  | InvalidByteCount (expected found : Nat)
  | AESDecryptionFailed (underlying : String)
  | InvalidMnemonicPhrase (underlying : String)
  | FailedToConvertSecretToBytes (underlying : String)
  | FailedToConvertBytesToSecret (underlying : String)
  | InvalidHex (underlying : String)
  | FailedToDecryptSealedSecret
  | InvalidAESBytesTooShort (expected_at_least found : Nat)
  | AnswersToSecurityQuestionsCannotBeEmpty
deriving DecidableEq, Repr

/-- Outcome of a Rust computation that may return `Ok`, return `Err`, or
panic (`assert!` / `unwrap` / `expect`). -/
inductive POutcome (α : Type) where
  | ok (a : α)
  | err (e : Error)
  | panicked
deriving DecidableEq, Repr

/-- Lift a Rust `Result` into a `POutcome`. -/
def exceptToP {α : Type} : Except Error α → POutcome α
  | .ok a => .ok a
  | .error e => .err e

/-- Rust `SecurityQuestionKind`
(src/crates/core/src/models/question/security_question_kind.rs, declared in
the `question` module; the file itself is absent from src/ — modelled from
the spec, which records `Freeform` as the only variant). -/
inductive SecurityQuestionKind where
  | Freeform
deriving DecidableEq, Repr

/-- Rust `SecurityQuestionExpectedAnswerFormat`. -/
structure SecurityQuestionExpectedAnswerFormat where
  answer_structure : String
  example_answer : String
  unsafe_answers : List String
deriving DecidableEq, Repr

/-- Rust `SecurityQuestion`; equality is structural on all fields, as the
derived `PartialEq` in the source. `id` is a `u16` and `version` a `u8`;
the claims never exercise overflow of either, so both are `Nat` here. -/
structure SecurityQuestion where
  id : Nat
  version : Nat
  kind : SecurityQuestionKind
  question : String
  expected_answer_format : SecurityQuestionExpectedAnswerFormat
deriving DecidableEq, Repr

/-- Display string of `SecurityQuestionKind` (derive_more `Display` on a
unit variant prints the variant name). -/
def SecurityQuestionKind.toDisplay : SecurityQuestionKind → String
  | .Freeform => "Freeform"

/-- Display string of `SecurityQuestionExpectedAnswerFormat`: the source
derives Display with format string `"{answer_structure}"`. -/
def SecurityQuestionExpectedAnswerFormat.toDisplay
    (f : SecurityQuestionExpectedAnswerFormat) : String :=
  f.answer_structure

/-- Display string of `SecurityQuestion`, from the derive_more attribute
`"SecurityQuestion(id: {id}, version: {version}, kind: {kind}, question:
{question}, format: {expected_answer_format})"`. -/
def SecurityQuestion.toDisplay (q : SecurityQuestion) : String :=
  "SecurityQuestion(id: " ++ toString q.id ++ ", version: " ++
    toString q.version ++ ", kind: " ++ q.kind.toDisplay ++ ", question: " ++
    q.question ++ ", format: " ++ q.expected_answer_format.toDisplay ++ ")"

/-- Rust `SecurityQuestionAnswerAndSalt`. The salt (`Exactly32Bytes`, whose
defining file is absent from src/) is modelled as the `Nat` value of its 32
bytes. -/
structure SecurityQuestionAnswerAndSalt where
  question : SecurityQuestion
  answer : String
  salt : Nat
deriving DecidableEq, Repr

/-- Rust `SecurityQuestionAndSalt`. -/
structure SecurityQuestionAndSalt where
  question : SecurityQuestion
  salt : Nat
deriving DecidableEq, Repr

/-- Rust `SecurityQuestionAnswerAndSalt::question_and_salt`. -/
def SecurityQuestionAnswerAndSalt.question_and_salt
    (qa : SecurityQuestionAnswerAndSalt) : SecurityQuestionAndSalt :=
  { question := qa.question, salt := qa.salt }

/-- Insertion step of an insertion-ordered set: skip elements already seen.
Models the behaviour of `indexmap::IndexSet` under `collect`. -/
def indexSetAux {α : Type} [DecidableEq α] (seen : List α) : List α → List α
  | [] => []
  | x :: xs =>
      if x ∈ seen then indexSetAux seen xs
      else x :: indexSetAux (x :: seen) xs

/-- Collect a list into an `IndexSet`: keep the first occurrence of each
element, preserving insertion order. -/
def indexSetOfList {α : Type} [DecidableEq α] (l : List α) : List α :=
  indexSetAux [] l

/-- Rust `SecurityQuestionsAnswersAndSalts::<QUESTION_COUNT>::try_from_iter`
(src/crates/core/src/models/answer/security_questions_answers_and_salts.rs):
collect into an `IndexSet`, then convert to `[_; QUESTION_COUNT]`, failing
with `InvalidQuestionsAndAnswersCount` when the deduplicated length is not
exactly `QUESTION_COUNT`. -/
def SecurityQuestionsAnswersAndSalts.try_from_iter (QUESTION_COUNT : Nat)
    (qas : List SecurityQuestionAnswerAndSalt) :
    Except Error (List SecurityQuestionAnswerAndSalt) :=
  let qas := indexSetOfList qas
  if qas.length = QUESTION_COUNT then .ok qas
  else .error (.InvalidQuestionsAndAnswersCount QUESTION_COUNT qas.length)

/-- Rust `SecurityQuestionsAndSalts::<QUESTION_COUNT>::try_from_iter`
(src/crates/core/src/models/question/security_questions_and_salts.rs). -/
def SecurityQuestionsAndSalts.try_from_iter (QUESTION_COUNT : Nat)
    (qs : List SecurityQuestionAndSalt) :
    Except Error (List SecurityQuestionAndSalt) :=
  let qs := indexSetOfList qs
  if qs.length = QUESTION_COUNT then .ok qs
  else .error (.InvalidQuestionsAndSaltCount QUESTION_COUNT qs.length)

/-- The code points stripped from answers,
`SECURITY_QUESTIONS_TRIMMED_CHARS` in
keys_from_questions_and_answers_lower_trim_utf8.rs: space, tab, line feed,
full stop, exclamation mark, question mark, apostrophe, quotation mark,
left single quotation mark, right single quotation mark, fullwidth
apostrophe. -/
def SECURITY_QUESTIONS_TRIMMED_CHARS : List Char :=
  [Char.ofNat 32, Char.ofNat 9, Char.ofNat 10, Char.ofNat 46, Char.ofNat 33,
   Char.ofNat 63, Char.ofNat 39, Char.ofNat 34, Char.ofNat 0x2018,
   Char.ofNat 0x2019, Char.ofNat 0xFF07]

/-- Per-character model of Rust `str::to_lowercase`. The Rust standard
library applies the full Unicode lowercase table; this embedding carries
its ASCII fragment (the only cased code points occurring in the
repository's fixtures and claims — every member of the strip set above is
caseless and fixed by the Rust mapping as well). -/
def char_to_lowercase (c : Char) : Char :=
  if 65 ≤ c.toNat ∧ c.toNat ≤ 90 then Char.ofNat (c.toNat + 32) else c

/-- Rust
`SecurityQuestionsKeyExchangeKeysFromQandAsLowerTrimUtf8::trim_answer`:
lowercase the whole string, then retain only characters outside
`SECURITY_QUESTIONS_TRIMMED_CHARS`. -/
def trim_answer (answer : String) : String :=
  String.mk ((answer.data.map char_to_lowercase).filter
    (fun c => decide (c ∉ SECURITY_QUESTIONS_TRIMMED_CHARS)))

/-- UTF-8 encoding of one scalar value (the byte sequence Rust
`str::as_bytes` stores for it). -/
def utf8EncodeChar (c : Char) : List Nat :=
  let n := c.toNat
  if n < 0x80 then [n]
  else if n < 0x800 then [0xC0 + n / 64, 0x80 + n % 64]
  else if n < 0x10000 then
    [0xE0 + n / 4096, 0x80 + (n / 64) % 64, 0x80 + n % 64]
  else
    [0xF0 + n / 262144, 0x80 + (n / 4096) % 64, 0x80 + (n / 64) % 64,
     0x80 + n % 64]

/-- UTF-8 byte encoding of a string (Rust `str::as_bytes`). -/
def utf8Encode (s : String) : List Nat :=
  s.data.flatMap utf8EncodeChar

/-- Rust
`SecurityQuestionsKeyExchangeKeysFromQandAsLowerTrimUtf8::bytes_from_answer`:
reject the answer when the raw string is empty, otherwise return the UTF-8
bytes of the trimmed answer. -/
def bytes_from_answer (answer : String) : Except Error (List Nat) :=
  if answer = "" then .error .AnswersToSecurityQuestionsCannotBeEmpty
  else .ok (utf8Encode (trim_answer answer))

/-- Rust `bytes_from_question`: the raw UTF-8 bytes of the question prompt
(`SecurityQuestion` is passed through its `AsRef<str>`, which yields the
`question` field). -/
def bytes_from_question (question : SecurityQuestion) : List Nat :=
  utf8Encode question.question

/-- Rust
`SecurityQuestionsKeyExchangeKeysFromQandAsLowerTrimUtf8::derive_entropies_from_question_answer_and_salt`.
HKDF-SHA-256 (external `hkdf` crate) is the parameter `hkdf`, taking the
salt, the input keying material and the info bytes to the 32-byte output
(as a `Nat`). -/
def derive_entropies_from_question_answer_and_salt
    (hkdf : Nat → List Nat → List Nat → Nat)
    (qas : SecurityQuestionAnswerAndSalt) : Except Error Nat :=
  match bytes_from_answer qas.answer with
  | .error e => .error e
  | .ok ikm =>
      let info := bytes_from_question qas.question
      .ok (hkdf qas.salt ikm info)

/-- Rust free function `n_choose_m::<N, M>`
(src/crates/core/src/models/encryption_keys.rs): error when `answers >
questions`, else the fold `(0..M).fold(1, |acc, i| acc * (N - i) / (i +
1))` with truncating natural division. -/
def n_choose_m (N M : Nat) : Except Error Nat :=
  let questions := N
  let answers := M
  if answers > questions then
    .error (.QuestionsMustBeGreaterThanOrEqualAnswers questions answers)
  else
    .ok ((List.range M).foldl (fun acc i => acc * (N - i) / (i + 1)) 1)

/-- Rust `EncryptionKeys::<QUESTION_COUNT, MIN_CORRECT_ANSWERS>::new`:
collect the keys into an `IndexSet`, compute the expected count with
`n_choose_m`, and fail with `InvalidQuestionsAndAnswersCount` when the
deduplicated length differs. -/
def EncryptionKeys.new (QUESTION_COUNT MIN_CORRECT_ANSWERS : Nat)
    (keys : List Nat) : Except Error (List Nat) :=
  let keys := indexSetOfList keys
  let len := keys.length
  match n_choose_m QUESTION_COUNT MIN_CORRECT_ANSWERS with
  | .error e => .error e
  | .ok expected_len =>
      if len ≠ expected_len then
        .error (.InvalidQuestionsAndAnswersCount expected_len len)
      else
        .ok keys

/-- All size-`k` combinations of a list, in the order produced by
`itertools::combinations`: lexicographic over input positions. -/
def combinations {α : Type} : Nat → List α → List (List α)
  | 0, _ => [[]]
  | _ + 1, [] => []
  | k + 1, x :: xs =>
      (combinations k xs).map (fun c => x :: c) ++ combinations (k + 1) xs

/-- Rust closure `key_from_combination_by_xor`: `reduce` the combination
with XOR (`None` on an empty combination, which the source `unwrap`s —
hence `Option`). -/
def key_from_combination_by_xor (combination : List Nat) : Option Nat :=
  match combination with
  | [] => none
  | x :: xs => some (xs.foldl (fun acc y => Nat.xor acc y) x)

/-- Short-circuiting collection of per-element `Option` results, as
`Iterator::map(...).collect()` over `unwrap`-ping closures: `none` as soon
as any element panics. -/
def collectOptions {α β : Type} (f : α → Option β) : List α → Option (List β)
  | [] => some []
  | x :: xs =>
      match f x with
      | none => none
      | some y =>
          match collectOptions f xs with
          | none => none
          | some ys => some (y :: ys)

/-- Short-circuiting collection of per-element `Result`s, as
`collect::<Result<Vec<_>>>()`: the first error wins. -/
def collectResults {α β : Type} (f : α → Except Error β) :
    List α → Except Error (List β)
  | [] => .ok []
  | x :: xs =>
      match f x with
      | .error e => .error e
      | .ok y =>
          match collectResults f xs with
          | .error e => .error e
          | .ok ys => .ok (y :: ys)

/-- Rust
`SecurityQuestionsEncryptionKeysByXorEntropies::encryption_keys_from_xor_between_all_combinations`:
enumerate all `MIN_CORRECT_ANSWERS`-combinations of the entropies, XOR each
combination into a key (panicking on an empty combination), collect into an
`IndexSet` and validate the count with `EncryptionKeys::new`. -/
def encryption_keys_from_xor_between_all_combinations
    (QUESTION_COUNT MIN_CORRECT_ANSWERS : Nat) (entropies : List Nat) :
    POutcome (List Nat) :=
  match collectOptions key_from_combination_by_xor
      (combinations MIN_CORRECT_ANSWERS entropies) with
  | none => .panicked
  | some keys =>
      exceptToP
        (EncryptionKeys.new QUESTION_COUNT MIN_CORRECT_ANSWERS
          (indexSetOfList keys))

/-- Rust
`SecurityQuestionsEncryptionKeysByXorEntropies::derive_encryption_keys_from`:
`assert!(QUESTION_COUNT >= MIN_CORRECT_ANSWERS)` (a panic, not an error),
then the combination enumeration above. -/
def derive_encryption_keys_from (QUESTION_COUNT MIN_CORRECT_ANSWERS : Nat)
    (entropies : List Nat) : POutcome (List Nat) :=
  if QUESTION_COUNT ≥ MIN_CORRECT_ANSWERS then
    encryption_keys_from_xor_between_all_combinations QUESTION_COUNT
      MIN_CORRECT_ANSWERS entropies
  else .panicked

/-- Rust `SecurityQuestionsKDFSchemeVersion1::derive_encryption_keys_from_questions_answers_and_salts`
(the `SecurityQuestionsKdfScheme::Version1` dispatch is the identity on
this): derive the per-question entropies (first error wins), convert the
`Vec` to `[_; QUESTION_COUNT]` (an `expect`, so a panic on a length
mismatch), then derive the subset keys. -/
def derive_encryption_keys_from_questions_answers_and_salts
    (hkdf : Nat → List Nat → List Nat → Nat)
    (QUESTION_COUNT MIN_CORRECT_ANSWERS : Nat)
    (qas : List SecurityQuestionAnswerAndSalt) : POutcome (List Nat) :=
  match collectResults
      (derive_entropies_from_question_answer_and_salt hkdf) qas with
  | .error e => .err e
  | .ok entropies =>
      if entropies.length = QUESTION_COUNT then
        derive_encryption_keys_from QUESTION_COUNT MIN_CORRECT_ANSWERS
          entropies
      else .panicked

/-- Modelled from the spec: the AES-256-GCM sealed box (the `AesGcm256`
implementation behind `EncryptionScheme::Version1` is absent from src/).
The spec describes the emitted bytes as nonce-prepended authenticated
ciphertext; the idealized authenticated cipher is kept abstract as the
triple of the nonce, the sealing key and the sealed plaintext, with
decryption succeeding exactly under the sealing key. -/
structure SealedBox where
  nonce : Nat
  key : Nat
  plaintext : List Nat
deriving DecidableEq, Repr

/-- Modelled from the spec: `EncryptionScheme::encrypt` (Version1,
AES-256-GCM) under a caller-chosen fresh nonce. -/
def encryptScheme (plaintext : List Nat) (key : Nat) (nonce : Nat) :
    SealedBox :=
  { nonce := nonce, key := key, plaintext := plaintext }

/-- Modelled from the spec: `EncryptionScheme::decrypt` (Version1,
AES-256-GCM): authentication succeeds exactly under the sealing key,
returning the sealed plaintext; any other key fails the MAC check. -/
def decryptScheme (box : SealedBox) (key : Nat) : Except Error (List Nat) :=
  if box.key = key then .ok box.plaintext
  else .error (.AESDecryptionFailed "aead::Error")

/-- Rust `SecurityQuestionsSealed<Secret, QUESTION_COUNT,
MIN_CORRECT_ANSWERS>`. The `kdf_scheme` and `encryption_scheme` fields are
single-variant version tags carrying no data (`Version1`) and are omitted
from the state. -/
structure SecurityQuestionsSealed where
  security_questions_and_salts : List SecurityQuestionAndSalt
  encryptions : List SealedBox
deriving DecidableEq, Repr

/-- Rust `SecurityQuestionsSealed::with_schemes` (and hence `seal`, which
passes the default schemes). `toBytes` is the `Secret::to_bytes` of the
`IsSecret` implementor; `nonces i` is the fresh CSPRNG nonce drawn by the
`i`-th `encrypt` call. -/
def with_schemes {α : Type} (hkdf : Nat → List Nat → List Nat → Nat)
    (QUESTION_COUNT MIN_CORRECT_ANSWERS : Nat)
    (toBytes : α → Except String (List Nat)) (nonces : Nat → Nat)
    (secret : α) (withQas : List SecurityQuestionAnswerAndSalt) :
    POutcome SecurityQuestionsSealed :=
  match SecurityQuestionsAndSalts.try_from_iter QUESTION_COUNT
      (indexSetOfList (withQas.map
        SecurityQuestionAnswerAndSalt.question_and_salt)) with
  | .error e => .err e
  | .ok security_questions_and_salts =>
      match derive_encryption_keys_from_questions_answers_and_salts hkdf
          QUESTION_COUNT MIN_CORRECT_ANSWERS withQas with
      | .panicked => .panicked
      | .err e => .err e
      | .ok encryption_keys =>
          match toBytes secret with
          | .error e => .err (.FailedToConvertSecretToBytes e)
          | .ok secret_bytes =>
              .ok
                { security_questions_and_salts := security_questions_and_salts
                  encryptions :=
                    indexSetOfList
                      ((List.zip (List.range encryption_keys.length)
                          encryption_keys).map
                        (fun p => encryptScheme secret_bytes p.2 (nonces p.1))) }

/-- Rust `SecurityQuestionsSealed::are_all_answers_relevant`: the first
caller entry whose question equals no saved question triggers
`UnrelatedQuestionProvided` with that question's display string. -/
def are_all_answers_relevant (sealed : SecurityQuestionsSealed)
    (answers_to_question : List SecurityQuestionAnswerAndSalt) :
    Except Error Unit :=
  match answers_to_question.find?
      (fun qa =>
        !(sealed.security_questions_and_salts.any
          (fun saved => decide (saved.question = qa.question)))) with
  | some qa => .error (.UnrelatedQuestionProvided qa.question.toDisplay)
  | none => .ok ()

/-- The cross-product loop of `SecurityQuestionsSealed::open`: try each
(key, ciphertext) pair in order; return the first pair whose decryption and
reconstruction both succeed; remember the most recent reconstruction
failure after a successful decryption. -/
def open_loop {α : Type} (fromBytes : List Nat → Except String α) :
    List (Nat × SealedBox) → Option Error → POutcome α
  | [], recorded =>
      match recorded with
      | some e => .err e
      | none => .err .FailedToDecryptSealedSecret
  | (key, box) :: rest, recorded =>
      match decryptScheme box key with
      | .error _ => open_loop fromBytes rest recorded
      | .ok decrypted =>
          match fromBytes decrypted with
          | .ok secret => .ok secret
          | .error deserialize_fail =>
              open_loop fromBytes rest
                (some (.FailedToConvertBytesToSecret deserialize_fail))

/-- The body of `SecurityQuestionsSealed::open` after the relevance check:
derive the decryption keys from the caller's entries, then run the
cross-product loop over keys (outer) and stored ciphertexts (inner). -/
def open_after_relevance {α : Type} (hkdf : Nat → List Nat → List Nat → Nat)
    (QUESTION_COUNT MIN_CORRECT_ANSWERS : Nat)
    (fromBytes : List Nat → Except String α)
    (sealed : SecurityQuestionsSealed)
    (answers_to_question : List SecurityQuestionAnswerAndSalt) : POutcome α :=
  match derive_encryption_keys_from_questions_answers_and_salts hkdf
      QUESTION_COUNT MIN_CORRECT_ANSWERS answers_to_question with
  | .panicked => .panicked
  | .err e => .err e
  | .ok decryption_keys =>
      open_loop fromBytes
        (decryption_keys.flatMap
          (fun key => sealed.encryptions.map (fun box => (key, box))))
        none

/-- Rust `SecurityQuestionsSealed::open` (and its alias `decrypt`):
relevance check first, then key derivation and the cross-product decryption
loop. `fromBytes` is the `Secret::from_bytes` of the `IsSecret`
implementor. -/
def openSealed {α : Type} (hkdf : Nat → List Nat → List Nat → Nat)
    (QUESTION_COUNT MIN_CORRECT_ANSWERS : Nat)
    (fromBytes : List Nat → Except String α)
    (sealed : SecurityQuestionsSealed)
    (withAnswers : List SecurityQuestionAnswerAndSalt) : POutcome α :=
  match are_all_answers_relevant sealed withAnswers with
  | .error e => .err e
  | .ok _ =>
      open_after_relevance hkdf QUESTION_COUNT MIN_CORRECT_ANSWERS fromBytes
        sealed withAnswers

/-- Canonicalization as the spec words it: Unicode-lowercase the string,
then remove every occurrence of the eleven listed code points (U+0020,
U+0009, U+000A, U+002E, U+0021, U+003F, U+0027, U+0022, U+2018, U+2019,
U+FF07), then UTF-8 encode the result. Stated over code points to be
compared with the source-side `trim_answer`, which strips character
literals. -/
def specCanonicalize (s : String) : List Nat :=
  utf8Encode (String.mk ((s.data.map char_to_lowercase).filter
    (fun c => decide (c.toNat ∉
      [0x20, 0x9, 0xA, 0x2E, 0x21, 0x3F, 0x27, 0x22, 0x2018, 0x2019,
       0xFF07]))))

/-! Concrete fixtures used by witnesses and counterexamples. -/

/-- A fixed expected-answer format for test questions. -/
def testFormat : SecurityQuestionExpectedAnswerFormat :=
  { answer_structure := "<X>", example_answer := "x", unsafe_answers := [] }

/-- A distinct freeform test question per index. -/
def testQ (i : Nat) : SecurityQuestion :=
  { id := i, version := 1, kind := .Freeform, question := "q" ++ toString i,
    expected_answer_format := testFormat }

/-- A question-answer-salt triple for question `i` (salt `i`). -/
def testQas (i : Nat) (a : String) : SecurityQuestionAnswerAndSalt :=
  { question := testQ i, answer := a, salt := i }

/-- A concrete stand-in for HKDF-SHA-256 in witnesses: entropies are powers
of two, so small families are GF(2)-independent. -/
def testHkdf : Nat → List Nat → List Nat → Nat :=
  fun salt ikm _ => 2 ^ (2 * salt + (ikm.headD 0) % 2)

/-- Identity `to_bytes` of a byte-buffer secret. -/
def toBytesId : List Nat → Except String (List Nat) := fun l => .ok l

/-- Identity `from_bytes` of a byte-buffer secret. -/
def fromBytesId : List Nat → Except String (List Nat) := fun l => .ok l

/-- Deterministic nonce supply for witnesses (the `i`-th encrypt call draws
nonce `i`). -/
def testNonces : Nat → Nat := fun i => i

/-- The three seal-side question-answer-salt entries of the concrete
scenario (N = 3, M = 2). -/
def origQas3 : List SecurityQuestionAnswerAndSalt :=
  [testQas 0 "a", testQas 1 "b", testQas 2 "c"]

/-- The container that sealing `[5, 6]` under `origQas3` with `testHkdf`
and `testNonces` produces (checked by `rfl` below). -/
def testSealed3 : SecurityQuestionsSealed :=
  { security_questions_and_salts :=
      [{ question := testQ 0, salt := 0 }, { question := testQ 1, salt := 1 },
       { question := testQ 2, salt := 2 }]
    encryptions :=
      [{ nonce := 0, key := 6, plaintext := [5, 6] },
       { nonce := 1, key := 34, plaintext := [5, 6] },
       { nonce := 2, key := 36, plaintext := [5, 6] }] }

/-- Like `testSealed3` but retaining only one of the three C(3, 2)
ciphertexts. -/
def testSealedOneBox : SecurityQuestionsSealed :=
  { security_questions_and_salts := testSealed3.security_questions_and_salts
    encryptions := [{ nonce := 0, key := 6, plaintext := [5, 6] }] }

/-! Derived notions used to state and prove the threshold properties. -/

instance : Std.Commutative Nat.xor := ⟨Nat.xor_comm⟩

instance : Std.Associative Nat.xor := ⟨Nat.xor_assoc⟩

/-- XOR of all elements of a list (the value `reduce`-ing a nonempty
combination with XOR computes). -/
def xorList (l : List Nat) : Nat := l.foldr Nat.xor 0

/-- XOR of all elements of a finite set. -/
def xorFinset (s : Finset Nat) : Nat := Finset.fold Nat.xor 0 id s

/-- GF(2)-independence of a family of 32-byte values: the family has no
repeats and no nonempty subfamily XORs to zero. This is the spec's
idealization of HKDF-SHA-256 outputs ("XOR of M independent 32-byte
uniformly-random entropies is itself uniformly random"): it holds for
independent uniform values except with negligible probability. -/
def XorIndep (L : List Nat) : Prop :=
  L.Nodup ∧ ∀ u ∈ L.toFinset.powerset, u ≠ ∅ → xorFinset u ≠ 0

instance (L : List Nat) : Decidable (XorIndep L) :=
  inferInstanceAs (Decidable (L.Nodup ∧
    ∀ u ∈ L.toFinset.powerset, u ≠ ∅ → xorFinset u ≠ 0))

/-- Select the elements of a list at the positions where a Boolean mask is
true. -/
def maskSel {α : Type} : List Bool → List α → List α
  | b :: bs, x :: xs => if b then x :: maskSel bs xs else maskSel bs xs
  | _, _ => []

/-- Whether a caller answer agrees, after canonicalization, with the answer
of a seal-side entry. -/
def answersAgree (o : SecurityQuestionAnswerAndSalt) (a : String) : Bool :=
  decide (trim_answer a = trim_answer o.answer)

/-- Positionwise canonicalized agreement of caller answers with the
seal-side entries. -/
def agreeBoolsOf (origQas : List SecurityQuestionAnswerAndSalt)
    (answers : List String) : List Bool :=
  List.zipWith (fun o a => answersAgree o a) origQas answers

/-- Number of positions at which the caller answers agree, after
canonicalization, with the seal-side answers. -/
def agreeCountOf (origQas : List SecurityQuestionAnswerAndSalt)
    (answers : List String) : Nat :=
  (agreeBoolsOf origQas answers).count true

/-- The caller-side N-array over the container's questions and salts: entry
`i` carries the original question and salt of position `i` together with
the caller's `i`-th answer. -/
def callerQasOf (origQas : List SecurityQuestionAnswerAndSalt)
    (answers : List String) : List SecurityQuestionAnswerAndSalt :=
  List.zipWith
    (fun o a => { question := o.question, answer := a, salt := o.salt })
    origQas answers

/-- The entropy a question-answer-salt entry with a raw-nonempty answer
derives (the value `derive_entropies_from_question_answer_and_salt`
returns). -/
def entOf (hkdf : Nat → List Nat → List Nat → Nat)
    (qa : SecurityQuestionAnswerAndSalt) : Nat :=
  hkdf qa.salt (utf8Encode (trim_answer qa.answer))
    (bytes_from_question qa.question)

/-- The seal-side per-question entropies. -/
def origEntsOf (hkdf : Nat → List Nat → List Nat → Nat)
    (origQas : List SecurityQuestionAnswerAndSalt) : List Nat :=
  origQas.map (entOf hkdf)

/-- The caller-side per-question entropies. -/
def callerEntsOf (hkdf : Nat → List Nat → List Nat → Nat)
    (origQas : List SecurityQuestionAnswerAndSalt)
    (answers : List String) : List Nat :=
  (callerQasOf origQas answers).map (entOf hkdf)

/-- The caller entropies at the positions of canonical disagreement (the
"wrong-answer" entropies). -/
def badEntsOf (hkdf : Nat → List Nat → List Nat → Nat)
    (origQas : List SecurityQuestionAnswerAndSalt)
    (answers : List String) : List Nat :=
  maskSel ((agreeBoolsOf origQas answers).map not)
    (callerEntsOf hkdf origQas answers)

/-- The family of entropies whose GF(2)-independence the threshold theorems
idealize: the seal-side entropies together with the wrong-answer caller
entropies. -/
def indepFamilyOf (hkdf : Nat → List Nat → List Nat → Nat)
    (origQas : List SecurityQuestionAnswerAndSalt)
    (answers : List String) : List Nat :=
  origEntsOf hkdf origQas ++ badEntsOf hkdf origQas answers

/-- The C(N, M) subset keys a successful key derivation over a list of
entropies produces, in enumeration order. -/
def subsetKeysOf (M : Nat) (ents : List Nat) : List Nat :=
  (combinations M ents).map xorList

/-- The ciphertext list a successful seal stores: one sealed box per subset
key, under the nonce its encrypt call drew. -/
def sealBoxesOf (M : Nat) (ents : List Nat) (nonces : Nat → Nat)
    (sb : List Nat) : List SealedBox :=
  (List.zip (List.range (subsetKeysOf M ents).length)
      (subsetKeysOf M ents)).map
    (fun p => encryptScheme sb p.2 (nonces p.1))

/-- The reconstruction-failure messages the cross-product loop of `open`
encounters, in loop order: one entry per (key, ciphertext) pair whose AEAD
decryption succeeds but whose `from_bytes` reconstruction fails. -/
def reconstruction_failures {α : Type} (fromBytes : List Nat → Except String α)
    (pairs : List (Nat × SealedBox)) : List String :=
  pairs.filterMap
    (fun p =>
      match decryptScheme p.2 p.1 with
      | .ok pl =>
          match fromBytes pl with
          | .error m => some m
          | .ok _ => none
      | .error _ => none)

/-- Replace every stored salt of a container by an arbitrary function of
its entry (used to state that `open`'s relevance check never inspects the
stored salts). -/
def replaceSealedSalts (f : SecurityQuestionAndSalt → Nat)
    (sealed : SecurityQuestionsSealed) : SecurityQuestionsSealed :=
  { sealed with
    security_questions_and_salts :=
      sealed.security_questions_and_salts.map
        (fun e => { question := e.question, salt := f e }) }

/-- Replace every caller-supplied salt by an arbitrary function of its
entry (used to state that `open`'s relevance check never inspects the
caller's salts). -/
def replaceAnswerSalts (g : SecurityQuestionAnswerAndSalt → Nat)
    (qas : List SecurityQuestionAnswerAndSalt) :
    List SecurityQuestionAnswerAndSalt :=
  qas.map (fun e => { e with salt := g e })

/-! Lemmas about the `IndexSet` model. -/

theorem mem_indexSetAux {α : Type} [DecidableEq α] (v : α) :
    ∀ (l seen : List α), v ∈ indexSetAux seen l ↔ v ∈ l ∧ v ∉ seen := by
  intro l
  induction l with
  | nil => intro seen; simp [indexSetAux]
  | cons x xs ih =>
      intro seen
      by_cases hx : x ∈ seen
      · rw [indexSetAux, if_pos hx, ih]
        constructor
        · rintro ⟨hv, hs⟩; exact ⟨List.mem_cons_of_mem x hv, hs⟩
        · rintro ⟨hv, hs⟩
          rcases List.mem_cons.mp hv with h | h
          · exact absurd (h ▸ hx) hs
          · exact ⟨h, hs⟩
      · rw [indexSetAux, if_neg hx]
        constructor
        · intro hmem
          rcases List.mem_cons.mp hmem with h | h
          · exact ⟨h ▸ List.mem_cons_self x xs, h ▸ hx⟩
          · obtain ⟨hv, hs⟩ := (ih (x :: seen)).mp h
            exact ⟨List.mem_cons_of_mem x hv,
              fun hvs => hs (List.mem_cons_of_mem x hvs)⟩
        · rintro ⟨hv, hs⟩
          rcases List.mem_cons.mp hv with h | h
          · exact h ▸ List.mem_cons_self x _
          · by_cases hvx : v = x
            · exact hvx ▸ List.mem_cons_self x _
            · refine List.mem_cons_of_mem x ((ih (x :: seen)).mpr ⟨h, ?_⟩)
              intro hvs
              rcases List.mem_cons.mp hvs with h' | h'
              · exact hvx h'
              · exact hs h'

theorem nodup_indexSetAux {α : Type} [DecidableEq α] :
    ∀ (l seen : List α), (indexSetAux seen l).Nodup := by
  intro l
  induction l with
  | nil => intro seen; simp [indexSetAux]
  | cons x xs ih =>
      intro seen
      by_cases hx : x ∈ seen
      · rw [indexSetAux, if_pos hx]; exact ih seen
      · rw [indexSetAux, if_neg hx]
        refine List.nodup_cons.mpr ⟨?_, ih (x :: seen)⟩
        intro hmem
        exact ((mem_indexSetAux x xs (x :: seen)).mp hmem).2
          (List.mem_cons_self x seen)

theorem indexSetAux_eq_self {α : Type} [DecidableEq α] :
    ∀ (l seen : List α), l.Nodup → (∀ v ∈ l, v ∉ seen) →
      indexSetAux seen l = l := by
  intro l
  induction l with
  | nil => intro seen _ _; rfl
  | cons x xs ih =>
      intro seen hnd hout
      have hx : x ∉ seen := hout x (List.mem_cons_self x xs)
      have hnd' := List.nodup_cons.mp hnd
      simp only [indexSetAux, if_neg hx]
      refine congrArg (x :: ·) (ih (x :: seen) hnd'.2 ?_)
      intro v hv hvs
      rcases List.mem_cons.mp hvs with h | h
      · exact hnd'.1 (h ▸ hv)
      · exact hout v (List.mem_cons_of_mem x hv) h

theorem mem_indexSetOfList {α : Type} [DecidableEq α] (v : α) (l : List α) :
    v ∈ indexSetOfList l ↔ v ∈ l := by
  simpa [indexSetOfList] using mem_indexSetAux v l []

theorem nodup_indexSetOfList {α : Type} [DecidableEq α] (l : List α) :
    (indexSetOfList l).Nodup :=
  nodup_indexSetAux l []

theorem indexSetOfList_eq_self {α : Type} [DecidableEq α] (l : List α)
    (h : l.Nodup) : indexSetOfList l = l :=
  indexSetAux_eq_self l [] h (fun v _ hv => absurd hv (List.not_mem_nil v))

/-! XOR algebra over lists and finite sets. -/

theorem nxor_comm (a b : Nat) : Nat.xor a b = Nat.xor b a :=
  Nat.xor_comm a b

theorem nxor_assoc (a b c : Nat) :
    Nat.xor (Nat.xor a b) c = Nat.xor a (Nat.xor b c) :=
  Nat.xor_assoc a b c

theorem nxor_self (a : Nat) : Nat.xor a a = 0 := Nat.xor_self a

theorem nxor_zero (a : Nat) : Nat.xor a 0 = a := Nat.xor_zero a

theorem nzero_xor (a : Nat) : Nat.xor 0 a = a := Nat.zero_xor a

theorem xorList_cons (x : Nat) (xs : List Nat) :
    xorList (x :: xs) = Nat.xor x (xorList xs) := rfl

theorem foldl_xor_eq_xorList (x : Nat) (l : List Nat) :
    l.foldl (fun acc y => Nat.xor acc y) x = Nat.xor x (xorList l) := by
  induction l generalizing x with
  | nil => exact (nxor_zero x).symm
  | cons y ys ih =>
      rw [List.foldl_cons, ih, xorList_cons, nxor_assoc]

theorem key_from_combination_by_xor_eq {c : List Nat} (h : c ≠ []) :
    key_from_combination_by_xor c = some (xorList c) := by
  cases c with
  | nil => exact absurd rfl h
  | cons x xs =>
      simp [key_from_combination_by_xor, foldl_xor_eq_xorList, xorList_cons]

theorem xorFinset_insert {a : Nat} {s : Finset Nat} (h : a ∉ s) :
    xorFinset (insert a s) = Nat.xor a (xorFinset s) :=
  Finset.fold_insert h

theorem xorList_eq_xorFinset {l : List Nat} (h : l.Nodup) :
    xorList l = xorFinset l.toFinset := by
  induction l with
  | nil => rfl
  | cons x xs ih =>
      obtain ⟨hx, hnd⟩ := List.nodup_cons.mp h
      rw [xorList_cons, List.toFinset_cons,
        xorFinset_insert (fun hm => hx (List.mem_toFinset.mp hm)), ih hnd]

theorem xorFinset_union_of_disjoint {s t : Finset Nat} (h : Disjoint s t) :
    xorFinset (s ∪ t) = Nat.xor (xorFinset s) (xorFinset t) := by
  rw [← Finset.disjUnion_eq_union s t h]
  have hfold : (s.disjUnion t h).fold Nat.xor (Nat.xor 0 0) id =
      Nat.xor (s.fold Nat.xor 0 id) (t.fold Nat.xor 0 id) :=
    Finset.fold_disjUnion h
  simpa [xorFinset] using hfold

theorem xor_cancel_aux (A B P : Nat) :
    Nat.xor (Nat.xor A P) (Nat.xor B P) = Nat.xor A B := by
  rw [nxor_comm B P, nxor_assoc, ← nxor_assoc P P B, nxor_self, nzero_xor]

theorem xorFinset_xor_eq_symmDiff (s t : Finset Nat) :
    Nat.xor (xorFinset s) (xorFinset t) = xorFinset ((s \ t) ∪ (t \ s)) := by
  have hs : xorFinset s = Nat.xor (xorFinset (s \ t)) (xorFinset (s ∩ t)) := by
    rw [← xorFinset_union_of_disjoint (Finset.disjoint_sdiff_inter s t),
      Finset.sdiff_union_inter]
  have ht : xorFinset t =
      Nat.xor (xorFinset (t \ s)) (xorFinset (t ∩ s)) := by
    rw [← xorFinset_union_of_disjoint (Finset.disjoint_sdiff_inter t s),
      Finset.sdiff_union_inter]
  rw [hs, ht, Finset.inter_comm t s, xor_cancel_aux,
    xorFinset_union_of_disjoint disjoint_sdiff_sdiff]

theorem xorFinset_inj_of_indep {supp : Finset Nat}
    (hind : ∀ u ∈ supp.powerset, u ≠ ∅ → xorFinset u ≠ 0)
    {s t : Finset Nat} (hs : s ⊆ supp) (ht : t ⊆ supp)
    (h : xorFinset s = xorFinset t) : s = t := by
  have hzero : xorFinset ((s \ t) ∪ (t \ s)) = 0 := by
    rw [← xorFinset_xor_eq_symmDiff, h, nxor_self]
  by_contra hne
  have hDne : (s \ t) ∪ (t \ s) ≠ ∅ := by
    intro hempty
    obtain ⟨h1, h2⟩ := Finset.union_eq_empty.mp hempty
    exact hne (Finset.Subset.antisymm
      (Finset.sdiff_eq_empty_iff_subset.mp h1)
      (Finset.sdiff_eq_empty_iff_subset.mp h2))
  refine hind _ (Finset.mem_powerset.mpr ?_) hDne hzero
  exact Finset.union_subset (Finset.sdiff_subset.trans hs)
    (Finset.sdiff_subset.trans ht)

/-! Lemmas about `combinations`. -/

theorem mem_combinations {α : Type} :
    ∀ (l : List α) (k : Nat) (c : List α),
      c ∈ combinations k l ↔ c.Sublist l ∧ c.length = k := by
  intro l
  induction l with
  | nil =>
      intro k c
      cases k with
      | zero =>
          simp only [combinations, List.mem_singleton]
          constructor
          · rintro rfl; exact ⟨List.Sublist.refl [], rfl⟩
          · rintro ⟨hsub, hlen⟩
            exact List.eq_nil_of_length_eq_zero hlen
      | succ k =>
          simp only [combinations, List.not_mem_nil, false_iff, not_and]
          intro hsub hlen
          rw [List.sublist_nil.mp hsub] at hlen
          exact absurd hlen (by simp)
  | cons x xs ih =>
      intro k c
      cases k with
      | zero =>
          simp only [combinations, List.mem_singleton]
          constructor
          · rintro rfl; exact ⟨List.nil_sublist _, rfl⟩
          · rintro ⟨hsub, hlen⟩
            exact List.eq_nil_of_length_eq_zero hlen
      | succ k =>
          simp only [combinations, List.mem_append, List.mem_map]
          constructor
          · rintro (⟨c', hc', rfl⟩ | hc)
            · obtain ⟨hsub, hlen⟩ := (ih k c').mp hc'
              exact ⟨hsub.cons₂ x, by simp [hlen]⟩
            · obtain ⟨hsub, hlen⟩ := (ih (k + 1) c).mp hc
              exact ⟨hsub.cons x, hlen⟩
          · rintro ⟨hsub, hlen⟩
            cases hsub with
            | cons _ h => exact Or.inr ((ih (k + 1) c).mpr ⟨h, hlen⟩)
            | @cons₂ _ _ _ h =>
                rename_i c'
                exact Or.inl ⟨c', (ih k c').mpr
                  ⟨h, Nat.succ_injective hlen⟩, rfl⟩

theorem length_combinations {α : Type} :
    ∀ (l : List α) (k : Nat),
      (combinations k l).length = Nat.choose l.length k := by
  intro l
  induction l with
  | nil => intro k; cases k <;> simp [combinations]
  | cons x xs ih =>
      intro k
      cases k with
      | zero => simp [combinations]
      | succ k =>
          simp only [combinations, List.length_append, List.length_map, ih,
            List.length_cons, Nat.choose_succ_succ]

theorem nodup_combinations {α : Type} :
    ∀ (l : List α), l.Nodup → ∀ k, (combinations k l).Nodup := by
  intro l
  induction l with
  | nil => intro _ k; cases k <;> simp [combinations]
  | cons x xs ih =>
      intro hnd k
      obtain ⟨hx, hnd'⟩ := List.nodup_cons.mp hnd
      cases k with
      | zero => simp [combinations]
      | succ k =>
          refine List.Nodup.append ((ih hnd' k).map (List.cons_injective))
            (ih hnd' (k + 1)) ?_
          intro c hc1 hc2
          obtain ⟨c', _, rfl⟩ := List.mem_map.mp hc1
          have hsub := ((mem_combinations xs (k + 1) (x :: c')).mp hc2).1
          exact hx (hsub.subset (List.mem_cons_self x c'))

/-- Distinct sublists of a duplicate-free list have distinct element sets:
a sublist is recovered by filtering the ambient list by membership. -/
theorem sublist_eq_filter_mem {α : Type} [DecidableEq α] :
    ∀ {s l : List α}, s.Sublist l → l.Nodup →
      s = l.filter (fun a => decide (a ∈ s)) := by
  intro s l hsub
  induction hsub with
  | slnil => intro _; rfl
  | @cons l₁ l₂ a h ih =>
      intro hnd
      obtain ⟨ha, hnd'⟩ := List.nodup_cons.mp hnd
      have hal : a ∉ l₁ := fun hmem => ha (h.subset hmem)
      rw [List.filter_cons, if_neg (by simpa using hal)]
      exact ih hnd'
  | @cons₂ l₁ l₂ a h ih =>
      intro hnd
      obtain ⟨ha, hnd'⟩ := List.nodup_cons.mp hnd
      rw [List.filter_cons, if_pos (by simp)]
      refine congrArg (a :: ·) ?_
      have hcongr : List.filter (fun b => decide (b ∈ a :: l₁)) l₂ =
          List.filter (fun b => decide (b ∈ l₁)) l₂ := by
        refine List.filter_congr ?_
        intro b hb
        have hba : b ≠ a := fun he => ha (he ▸ hb)
        refine decide_eq_decide.mpr ?_
        rw [List.mem_cons]
        exact or_iff_right hba
      rw [hcongr]
      exact ih hnd'

theorem sublist_eq_of_toFinset_eq {α : Type} [DecidableEq α]
    {s t l : List α} (hs : s.Sublist l) (ht : t.Sublist l) (hnd : l.Nodup)
    (h : s.toFinset = t.toFinset) : s = t := by
  rw [sublist_eq_filter_mem hs hnd, sublist_eq_filter_mem ht hnd]
  refine List.filter_congr ?_
  intro b _
  have hmem : b ∈ s ↔ b ∈ t := by
    rw [← List.mem_toFinset, ← List.mem_toFinset (l := t), h]
  simp [hmem]

/-! Lemmas about `maskSel`. -/

theorem maskSel_sublist {α : Type} :
    ∀ (bs : List Bool) (xs : List α), (maskSel bs xs).Sublist xs := by
  intro bs
  induction bs with
  | nil => intro xs; cases xs <;> exact List.nil_sublist _
  | cons b bs ih =>
      intro xs
      cases xs with
      | nil => exact List.nil_sublist _
      | cons x xs' =>
          cases b with
          | false => exact (ih xs').cons x
          | true => exact (ih xs').cons₂ x

theorem length_maskSel {α : Type} :
    ∀ (bs : List Bool) (xs : List α), bs.length = xs.length →
      (maskSel bs xs).length = bs.count true := by
  intro bs
  induction bs with
  | nil => intro xs _; simp [maskSel]
  | cons b bs ih =>
      intro xs hlen
      cases xs with
      | nil => simp at hlen
      | cons x xs' =>
          have hlen' : bs.length = xs'.length := by simpa using hlen
          cases b with
          | false => simp [maskSel, ih xs' hlen', List.count_cons]
          | true => simp [maskSel, ih xs' hlen', List.count_cons]

theorem mem_maskSel_split {α : Type} :
    ∀ (bs : List Bool) (xs : List α) (v : α), bs.length = xs.length →
      v ∈ xs → v ∈ maskSel bs xs ∨ v ∈ maskSel (bs.map not) xs := by
  intro bs
  induction bs with
  | nil => intro xs v hlen hv; rw [List.eq_nil_of_length_eq_zero hlen.symm] at hv; cases hv
  | cons b bs ih =>
      intro xs v hlen hv
      cases xs with
      | nil => cases hv
      | cons x xs' =>
          have hlen' : bs.length = xs'.length := by simpa using hlen
          rcases List.mem_cons.mp hv with rfl | hv'
          · cases b with
            | true => exact Or.inl (List.mem_cons_self _ _)
            | false => exact Or.inr (List.mem_cons_self _ _)
          · rcases ih xs' v hlen' hv' with h | h
            · cases b with
              | true => exact Or.inl (List.mem_cons_of_mem x h)
              | false => exact Or.inl h
            · cases b with
              | true => exact Or.inr h
              | false => exact Or.inr (List.mem_cons_of_mem x h)

theorem nodup_of_maskSel_parts {α : Type} :
    ∀ (bs : List Bool) (xs : List α), bs.length = xs.length →
      (maskSel bs xs).Nodup → (maskSel (bs.map not) xs).Nodup →
      (∀ v, v ∈ maskSel bs xs → v ∈ maskSel (bs.map not) xs → False) →
      xs.Nodup := by
  intro bs
  induction bs with
  | nil =>
      intro xs hlen _ _ _
      rw [List.eq_nil_of_length_eq_zero hlen.symm]
      exact List.nodup_nil
  | cons b bs ih =>
      intro xs hlen h1 h2 hdisj
      cases xs with
      | nil => exact List.nodup_nil
      | cons x xs' =>
          have hlen' : bs.length = xs'.length := by simpa using hlen
          cases b with
          | true =>
              simp only [maskSel, List.map_cons, if_pos, not] at h1 h2 hdisj
              obtain ⟨hx1, h1'⟩ := List.nodup_cons.mp h1
              refine List.nodup_cons.mpr ⟨?_, ih xs' hlen' h1' h2
                (fun v hv1 hv2 => hdisj v (List.mem_cons_of_mem x hv1) hv2)⟩
              intro hx
              rcases mem_maskSel_split bs xs' x hlen' hx with h | h
              · exact hx1 h
              · exact hdisj x (List.mem_cons_self _ _) h
          | false =>
              simp only [maskSel, List.map_cons, not] at h1 h2 hdisj
              obtain ⟨hx2, h2'⟩ := List.nodup_cons.mp h2
              refine List.nodup_cons.mpr ⟨?_, ih xs' hlen' h1 h2'
                (fun v hv1 hv2 => hdisj v hv1 (List.mem_cons_of_mem x hv2))⟩
              intro hx
              rcases mem_maskSel_split bs xs' x hlen' hx with h | h
              · exact hdisj x h (List.mem_cons_self _ _)
              · exact hx2 h

theorem maskSel_zip_congr {α β γ : Type} (p : α → β → Bool) (f : α → β → γ)
    (g : α → γ) (h : ∀ a b, p a b = true → f a b = g a) :
    ∀ (X : List α) (Y : List β), X.length = Y.length →
      maskSel (List.zipWith p X Y) (List.zipWith f X Y) =
        maskSel (List.zipWith p X Y) (X.map g) := by
  intro X
  induction X with
  | nil => intro Y _; rfl
  | cons a X ih =>
      intro Y hlen
      cases Y with
      | nil => simp at hlen
      | cons b Y =>
          have hlen' : X.length = Y.length := by simpa using hlen
          simp only [List.zipWith_cons_cons, List.map_cons]
          cases hp : p a b with
          | true => simp [maskSel, h a b hp, ih Y hlen']
          | false => simp [maskSel, ih Y hlen']

/-! Counting and selection lemmas for the agreement argument. -/

theorem count_true_zipWith_le {α β : Type} (p q : α → β → Bool)
    (h : ∀ a b, p a b = true → q a b = true) :
    ∀ (X : List α) (Y : List β),
      (List.zipWith p X Y).count true ≤ (List.zipWith q X Y).count true := by
  intro X
  induction X with
  | nil => intro Y; simp
  | cons a X ih =>
      intro Y
      cases Y with
      | nil => simp
      | cons b Y =>
          simp only [List.zipWith_cons_cons, List.count_cons]
          cases hp : p a b with
          | true =>
              rw [h a b hp]
              exact Nat.add_le_add (ih Y) (Nat.le_refl _)
          | false =>
              refine Nat.le_trans (Nat.le_trans ?_ (ih Y)) ?_
              · simp
              · exact Nat.le_add_right _ _

theorem exists_common_sublist_of_agree {α : Type} [DecidableEq α] :
    ∀ (X Y : List α) (M : Nat),
      M ≤ (List.zipWith (fun x y => decide (x = y)) X Y).count true →
      ∃ c : List α, c.Sublist X ∧ c.Sublist Y ∧ c.length = M := by
  intro X
  induction X with
  | nil =>
      intro Y M h
      simp only [List.zipWith_nil_left, List.count_nil, Nat.le_zero] at h
      exact ⟨[], List.nil_sublist _, List.nil_sublist _, h ▸ rfl⟩
  | cons x X ih =>
      intro Y M h
      cases Y with
      | nil =>
          simp only [List.zipWith_nil_right, List.count_nil, Nat.le_zero] at h
          exact ⟨[], List.nil_sublist _, List.nil_sublist _, h ▸ rfl⟩
      | cons y Y =>
          simp only [List.zipWith_cons_cons, List.count_cons] at h
          by_cases hxy : x = y
          · cases M with
            | zero => exact ⟨[], List.nil_sublist _, List.nil_sublist _, rfl⟩
            | succ M =>
                have hd : (decide (x = y) == true) = true := by simp [hxy]
                rw [hd, if_pos rfl] at h
                obtain ⟨c, hcX, hcY, hclen⟩ :=
                  ih Y M (Nat.succ_le_succ_iff.mp h)
                exact ⟨x :: c, hcX.cons₂ x, hxy ▸ hcY.cons₂ x, by simp [hclen]⟩
          · have hd : ¬((decide (x = y) == true) = true) := by simp [hxy]
            rw [if_neg hd, Nat.add_zero] at h
            obtain ⟨c, hcX, hcY, hclen⟩ := ih Y M h
            exact ⟨c, hcX.cons x, hcY.cons y, hclen⟩

/-! Collection lemmas. -/

theorem collectOptions_all_some {α β : Type} (f : α → Option β) (g : α → β) :
    ∀ (l : List α), (∀ x ∈ l, f x = some (g x)) →
      collectOptions f l = some (l.map g) := by
  intro l
  induction l with
  | nil => intro _; rfl
  | cons x xs ih =>
      intro h
      simp only [collectOptions, h x (List.mem_cons_self x xs),
        ih (fun y hy => h y (List.mem_cons_of_mem x hy)), List.map_cons]

theorem collectResults_all_ok {α β : Type} (f : α → Except Error β)
    (g : α → β) :
    ∀ (l : List α), (∀ x ∈ l, f x = .ok (g x)) →
      collectResults f l = .ok (l.map g) := by
  intro l
  induction l with
  | nil => intro _; rfl
  | cons x xs ih =>
      intro h
      simp only [collectResults, h x (List.mem_cons_self x xs),
        ih (fun y hy => h y (List.mem_cons_of_mem x hy)), List.map_cons]

/-! Success characterization of key derivation and seal. -/

theorem derive_entropies_ok (hkdf : Nat → List Nat → List Nat → Nat)
    (qa : SecurityQuestionAnswerAndSalt) (h : qa.answer ≠ "") :
    derive_entropies_from_question_answer_and_salt hkdf qa =
      .ok (entOf hkdf qa) := by
  unfold derive_entropies_from_question_answer_and_salt bytes_from_answer
  rw [if_neg h]
  rfl

theorem xorList_inj_on_combinations {ents : List Nat} {M : Nat}
    {supp : Finset Nat}
    (hind : ∀ u ∈ supp.powerset, u ≠ ∅ → xorFinset u ≠ 0)
    (hnd : ents.Nodup) (hsub : ents.toFinset ⊆ supp) :
    ∀ c c', c ∈ combinations M ents → c' ∈ combinations M ents →
      xorList c = xorList c' → c = c' := by
  intro c c' hc hc' he
  have hcs := ((mem_combinations ents M c).mp hc).1
  have hcs' := ((mem_combinations ents M c').mp hc').1
  have hcnd : c.Nodup := List.Nodup.sublist hcs hnd
  have hcnd' : c'.Nodup := List.Nodup.sublist hcs' hnd
  rw [xorList_eq_xorFinset hcnd, xorList_eq_xorFinset hcnd'] at he
  have hcsub : c.toFinset ⊆ supp := by
    intro a ha
    exact hsub (List.mem_toFinset.mpr (hcs.subset (List.mem_toFinset.mp ha)))
  have hcsub' : c'.toFinset ⊆ supp := by
    intro a ha
    exact hsub (List.mem_toFinset.mpr (hcs'.subset (List.mem_toFinset.mp ha)))
  exact sublist_eq_of_toFinset_eq hcs hcs' hnd
    (xorFinset_inj_of_indep hind hcsub hcsub' he)

/-- Helper: the integer fold of `n_choose_m` computes the binomial
coefficient whenever `M ≤ N` (each division is exact). -/
theorem n_choose_m_fold_eq_choose :
    ∀ (M N : Nat), M ≤ N →
      (List.range M).foldl (fun acc i => acc * (N - i) / (i + 1)) 1 =
        Nat.choose N M := by
  intro M
  induction M with
  | zero => intro N _; simp
  | succ m ih =>
      intro N h
      have hm : m ≤ N := Nat.le_of_succ_le h
      rw [List.range_succ, List.foldl_append, ih N hm]
      simp only [List.foldl_cons, List.foldl_nil]
      have hkey := Nat.choose_succ_right_eq N m
      calc Nat.choose N m * (N - m) / (m + 1)
          = Nat.choose N (m + 1) * (m + 1) / (m + 1) := by rw [hkey]
        _ = Nat.choose N (m + 1) := Nat.mul_div_cancel _ (Nat.succ_pos m)

theorem n_choose_m_ok {N M : Nat} (h : M ≤ N) :
    n_choose_m N M = .ok (Nat.choose N M) := by
  unfold n_choose_m
  rw [if_neg (by omega)]
  exact congrArg Except.ok (n_choose_m_fold_eq_choose M N h)

theorem derive_encryption_keys_from_ok {ents : List Nat} {N M : Nat}
    (hlenN : ents.length = N) (hM : 1 ≤ M) (hMN : M ≤ N)
    (hnd : ents.Nodup)
    (hinj : ∀ c c', c ∈ combinations M ents → c' ∈ combinations M ents →
      xorList c = xorList c' → c = c') :
    derive_encryption_keys_from N M ents = .ok (subsetKeysOf M ents) := by
  have hne : ∀ c ∈ combinations M ents, c ≠ [] := by
    intro c hc hnil
    have hlen := ((mem_combinations ents M c).mp hc).2
    rw [hnil] at hlen
    simp at hlen
    omega
  have hmapfold :
      collectOptions key_from_combination_by_xor (combinations M ents) =
        some (subsetKeysOf M ents) :=
    collectOptions_all_some _ _ _
      (fun c hc => key_from_combination_by_xor_eq (hne c hc))
  have hkeysnd : (subsetKeysOf M ents).Nodup :=
    (nodup_combinations ents hnd M).map_on
      (fun c hc c' hc' he => hinj c c' hc hc' he)
  have hkeyslen : (subsetKeysOf M ents).length = Nat.choose N M := by
    rw [subsetKeysOf, List.length_map, length_combinations, hlenN]
  have hnew : EncryptionKeys.new N M (indexSetOfList (subsetKeysOf M ents)) =
      .ok (subsetKeysOf M ents) := by
    rw [indexSetOfList_eq_self _ hkeysnd]
    unfold EncryptionKeys.new
    rw [indexSetOfList_eq_self _ hkeysnd, n_choose_m_ok hMN]
    show (if (subsetKeysOf M ents).length ≠ Nat.choose N M then
        Except.error (Error.InvalidQuestionsAndAnswersCount (Nat.choose N M)
          (subsetKeysOf M ents).length)
      else Except.ok (subsetKeysOf M ents)) = Except.ok (subsetKeysOf M ents)
    rw [if_neg (fun hc => hc hkeyslen)]
  have hred : exceptToP (EncryptionKeys.new N M
      (indexSetOfList (subsetKeysOf M ents))) =
      POutcome.ok (subsetKeysOf M ents) := by
    rw [hnew]
    rfl
  unfold derive_encryption_keys_from
  rw [if_pos (by omega)]
  unfold encryption_keys_from_xor_between_all_combinations
  rw [hmapfold]
  exact hred

theorem derive_keys_from_qas_ok {hkdf : Nat → List Nat → List Nat → Nat}
    {qas : List SecurityQuestionAnswerAndSalt} {N M : Nat}
    (hlenN : qas.length = N) (hne : ∀ qa ∈ qas, qa.answer ≠ "")
    (hM : 1 ≤ M) (hMN : M ≤ N) (hnd : (qas.map (entOf hkdf)).Nodup)
    (hinj : ∀ c c', c ∈ combinations M (qas.map (entOf hkdf)) →
      c' ∈ combinations M (qas.map (entOf hkdf)) →
      xorList c = xorList c' → c = c') :
    derive_encryption_keys_from_questions_answers_and_salts hkdf N M qas =
      .ok (subsetKeysOf M (qas.map (entOf hkdf))) := by
  have hents :
      collectResults (derive_entropies_from_question_answer_and_salt hkdf)
        qas = .ok (qas.map (entOf hkdf)) :=
    collectResults_all_ok _ _ _
      (fun qa hqa => derive_entropies_ok hkdf qa (hne qa hqa))
  have hstep : (if (List.map (entOf hkdf) qas).length = N then
      derive_encryption_keys_from N M (List.map (entOf hkdf) qas)
    else POutcome.panicked) =
      POutcome.ok (subsetKeysOf M (List.map (entOf hkdf) qas)) := by
    rw [if_pos (by rw [List.length_map]; exact hlenN)]
    exact derive_encryption_keys_from_ok
      (by rw [List.length_map]; exact hlenN) hM hMN hnd hinj
  unfold derive_encryption_keys_from_questions_answers_and_salts
  rw [hents]
  exact hstep

theorem with_schemes_ok {α : Type} (hkdf : Nat → List Nat → List Nat → Nat)
    {N M : Nat} (toBytes : α → Except String (List Nat)) (nonces : Nat → Nat)
    (secret : α) {sb : List Nat}
    {origQas : List SecurityQuestionAnswerAndSalt}
    (hlenN : origQas.length = N)
    (hqnd : (origQas.map (fun qa => qa.question)).Nodup)
    (hne : ∀ qa ∈ origQas, qa.answer ≠ "")
    (hM : 1 ≤ M) (hMN : M ≤ N)
    (hnd : (origEntsOf hkdf origQas).Nodup)
    (hinj : ∀ c c', c ∈ combinations M (origEntsOf hkdf origQas) →
      c' ∈ combinations M (origEntsOf hkdf origQas) →
      xorList c = xorList c' → c = c')
    (htb : toBytes secret = .ok sb) :
    with_schemes hkdf N M toBytes nonces secret origQas =
      .ok { security_questions_and_salts :=
              origQas.map SecurityQuestionAnswerAndSalt.question_and_salt
            encryptions :=
              sealBoxesOf M (origEntsOf hkdf origQas) nonces sb } := by
  have hqs_nd :
      (origQas.map SecurityQuestionAnswerAndSalt.question_and_salt).Nodup := by
    refine List.Nodup.of_map (fun q => q.question) ?_
    rw [List.map_map]
    exact hqnd
  have htfi : SecurityQuestionsAndSalts.try_from_iter N
      (indexSetOfList
        (origQas.map SecurityQuestionAnswerAndSalt.question_and_salt)) =
      .ok (origQas.map SecurityQuestionAnswerAndSalt.question_and_salt) := by
    rw [indexSetOfList_eq_self _ hqs_nd]
    unfold SecurityQuestionsAndSalts.try_from_iter
    rw [indexSetOfList_eq_self _ hqs_nd]
    rw [if_pos (by rw [List.length_map]; exact hlenN)]
  have hkeys := derive_keys_from_qas_ok hlenN hne hM hMN hnd hinj
  have hkeysnd : (subsetKeysOf M (origEntsOf hkdf origQas)).Nodup :=
    (nodup_combinations _ hnd M).map_on
      (fun c hc c' hc' he => hinj c c' hc hc' he)
  have hboxnd : (sealBoxesOf M (origEntsOf hkdf origQas) nonces sb).Nodup := by
    refine List.Nodup.of_map (fun b => b.key) ?_
    unfold sealBoxesOf
    rw [List.map_map]
    have hproj := List.map_snd_zip
      (List.range (subsetKeysOf M (origEntsOf hkdf origQas)).length)
      (subsetKeysOf M (origEntsOf hkdf origQas))
      (by rw [List.length_range])
    exact (hproj ▸ hkeysnd : _)
  have hbox : indexSetOfList
      ((List.zip (List.range (subsetKeysOf M (origEntsOf hkdf origQas)).length)
          (subsetKeysOf M (origEntsOf hkdf origQas))).map
        (fun p => encryptScheme sb p.2 (nonces p.1))) =
      sealBoxesOf M (origEntsOf hkdf origQas) nonces sb :=
    indexSetOfList_eq_self _ hboxnd
  unfold with_schemes
  rw [htfi, hkeys, htb]
  exact congrArg
    (fun (l : List SealedBox) => POutcome.ok
      ({ security_questions_and_salts :=
           origQas.map SecurityQuestionAnswerAndSalt.question_and_salt
         encryptions := l } : SecurityQuestionsSealed))
    hbox

/-! Lemmas about the decryption loop of `open`. -/

theorem open_loop_all_fail {α : Type} (fromBytes : List Nat → Except String α) :
    ∀ (pairs : List (Nat × SealedBox)),
      (∀ p ∈ pairs, p.2.key ≠ p.1) →
      open_loop fromBytes pairs none = .err .FailedToDecryptSealedSecret := by
  intro pairs
  induction pairs with
  | nil => intro _; rfl
  | cons p rest ih =>
      intro h
      obtain ⟨k, box⟩ := p
      have hk : box.key ≠ k := h (k, box) (List.mem_cons_self _ _)
      simp only [open_loop, decryptScheme, if_neg hk]
      exact ih (fun q hq => h q (List.mem_cons_of_mem _ hq))

theorem open_loop_success {α : Type} (fromBytes : List Nat → Except String α)
    (secret : α) (sb : List Nat) :
    ∀ (pairs : List (Nat × SealedBox)) (recorded : Option Error),
      (∀ p ∈ pairs, p.2.plaintext = sb) →
      fromBytes sb = .ok secret →
      (∃ p ∈ pairs, p.2.key = p.1) →
      open_loop fromBytes pairs recorded = .ok secret := by
  intro pairs
  induction pairs with
  | nil =>
      rintro recorded _ _ ⟨p, hp, _⟩
      cases hp
  | cons q rest ih =>
      rintro recorded hpl hfb hex
      obtain ⟨k, box⟩ := q
      by_cases hk : box.key = k
      · simp only [open_loop, decryptScheme, if_pos hk]
        rw [hpl (k, box) (List.mem_cons_self _ _), hfb]
      · simp only [open_loop, decryptScheme, if_neg hk]
        refine ih recorded
          (fun p hp => hpl p (List.mem_cons_of_mem _ hp)) hfb ?_
        obtain ⟨p, hp, hpk⟩ := hex
        rcases List.mem_cons.mp hp with rfl | hp'
        · exact absurd hpk hk
        · exact ⟨p, hp', hpk⟩

theorem open_loop_no_success {α : Type}
    (fromBytes : List Nat → Except String α) :
    ∀ (pairs : List (Nat × SealedBox)) (recorded : Option Error),
      (∀ p ∈ pairs, ∀ pl, decryptScheme p.2 p.1 = .ok pl →
        ∃ m, fromBytes pl = .error m) →
      open_loop fromBytes pairs recorded =
        match (reconstruction_failures fromBytes pairs).getLast? with
        | some m => .err (.FailedToConvertBytesToSecret m)
        | none =>
            match recorded with
            | some e => .err e
            | none => .err .FailedToDecryptSealedSecret := by
  intro pairs
  induction pairs with
  | nil => intro recorded _; cases recorded <;> rfl
  | cons q rest ih =>
      intro recorded h
      obtain ⟨k, box⟩ := q
      cases hdec : decryptScheme box k with
      | error e =>
          have hfail : reconstruction_failures fromBytes ((k, box) :: rest) =
              reconstruction_failures fromBytes rest := by
            unfold reconstruction_failures
            rw [List.filterMap_cons]
            simp only [hdec]
          rw [hfail]
          simp only [open_loop, hdec]
          exact ih recorded (fun p hp => h p (List.mem_cons_of_mem _ hp))
      | ok pl =>
          obtain ⟨m, hm⟩ := h (k, box) (List.mem_cons_self _ _) pl hdec
          have hfail : reconstruction_failures fromBytes ((k, box) :: rest) =
              m :: reconstruction_failures fromBytes rest := by
            unfold reconstruction_failures
            rw [List.filterMap_cons]
            simp only [hdec, hm]
          rw [hfail]
          simp only [open_loop, hdec, hm]
          rw [ih (some (.FailedToConvertBytesToSecret m))
            (fun p hp => h p (List.mem_cons_of_mem _ hp))]
          rw [List.getLast?_cons]
          cases (reconstruction_failures fromBytes rest).getLast? <;> rfl

/-! Lemmas about the relevance check of `open`. -/

theorem are_all_answers_relevant_ok (sealed : SecurityQuestionsSealed)
    (qas : List SecurityQuestionAnswerAndSalt)
    (h : ∀ qa ∈ qas, ∃ saved ∈ sealed.security_questions_and_salts,
      saved.question = qa.question) :
    are_all_answers_relevant sealed qas = .ok () := by
  unfold are_all_answers_relevant
  rw [List.find?_eq_none.mpr ?_]
  intro qa hqa
  obtain ⟨saved, hsaved, he⟩ := h qa hqa
  simp only [Bool.not_eq_true', Bool.not_eq_false]
  exact List.any_eq_true.mpr ⟨saved, hsaved, decide_eq_true he⟩

theorem find?_first_offender {β : Type} (p : β → Bool) :
    ∀ (pre : List β) (a : β) (post : List β),
      (∀ x ∈ pre, p x = false) → p a = true →
      List.find? p (pre ++ a :: post) = some a := by
  intro pre
  induction pre with
  | nil =>
      intro a post _ ha
      rw [List.nil_append]
      exact List.find?_cons_of_pos post ha
  | cons x pre' ih =>
      intro a post hpre ha
      rw [List.cons_append, List.find?_cons_of_neg _
        (by rw [hpre x (List.mem_cons_self _ _)]; simp)]
      exact ih a post (fun y hy => hpre y (List.mem_cons_of_mem _ hy)) ha

/-! Lemmas relating caller-side lists to the seal-side lists. -/

theorem zipWith_same_left {α β γ δ : Type} (f : α → γ → δ) (g : α → β → γ) :
    ∀ (X : List α) (Y : List β),
      List.zipWith f X (List.zipWith g X Y) =
        List.zipWith (fun x y => f x (g x y)) X Y := by
  intro X
  induction X with
  | nil => intro Y; rfl
  | cons a X ih =>
      intro Y
      cases Y with
      | nil => rfl
      | cons b Y => simp only [List.zipWith_cons_cons, ih]

theorem mem_callerQasOf {origQas : List SecurityQuestionAnswerAndSalt} :
    ∀ {answers : List String}, ∀ qa ∈ callerQasOf origQas answers,
      ∃ o ∈ origQas,
        qa.question = o.question ∧ qa.salt = o.salt ∧ qa.answer ∈ answers := by
  unfold callerQasOf
  induction origQas with
  | nil => intro answers qa hqa; cases hqa
  | cons o os ih =>
      intro answers qa hqa
      cases answers with
      | nil => cases hqa
      | cons a as =>
          rw [List.zipWith_cons_cons] at hqa
          rcases List.mem_cons.mp hqa with rfl | hqa'
          · exact ⟨o, List.mem_cons_self _ _, rfl, rfl,
              List.mem_cons_self _ _⟩
          · obtain ⟨o', ho', he1, he2, he3⟩ := ih qa hqa'
            exact ⟨o', List.mem_cons_of_mem _ ho', he1, he2,
              List.mem_cons_of_mem _ he3⟩

theorem exists_mem_zip_snd {α β : Type} :
    ∀ (l₁ : List α) (l₂ : List β) (x : β), l₂.length ≤ l₁.length → x ∈ l₂ →
      ∃ p ∈ List.zip l₁ l₂, p.2 = x := by
  intro l₁
  induction l₁ with
  | nil =>
      intro l₂ x h hx
      cases l₂ with
      | nil => cases hx
      | cons b bs => simp at h
  | cons a l₁ ih =>
      intro l₂ x h hx
      cases l₂ with
      | nil => cases hx
      | cons b bs =>
          simp only [List.zip_cons_cons]
          rcases List.mem_cons.mp hx with rfl | hx'
          · exact ⟨(a, x), List.mem_cons_self _ _, rfl⟩
          · obtain ⟨p, hp, hpx⟩ := ih bs x (by simpa using h) hx'
            exact ⟨p, List.mem_cons_of_mem _ hp, hpx⟩

theorem callerEntsOf_eq_zipWith (hkdf : Nat → List Nat → List Nat → Nat)
    (origQas : List SecurityQuestionAnswerAndSalt)
    (answers : List String) :
    callerEntsOf hkdf origQas answers =
      List.zipWith
        (fun o a =>
          entOf hkdf { question := o.question, answer := a, salt := o.salt })
        origQas answers := by
  unfold callerEntsOf callerQasOf
  rw [List.map_zipWith]

/-- Threshold behaviour of seal/open (core lemma). Under the spec's
idealizations — HKDF outputs forming a GF(2)-independent family and the
secret's byte conversion round-tripping — a caller N-array over the
container's questions and salts with all answers raw-nonempty opens the
container exactly when it agrees with the original answers, after
canonicalization, on at least M positions; on fewer agreements open fails
with the failed-to-decrypt-sealed-secret error. -/
theorem threshold_main {α : Type} (hkdf : Nat → List Nat → List Nat → Nat)
    {N M : Nat} (toBytes : α → Except String (List Nat))
    (fromBytes : List Nat → Except String α) (nonces : Nat → Nat)
    (secret : α) (sb : List Nat)
    (origQas : List SecurityQuestionAnswerAndSalt) (answers : List String)
    (C : SecurityQuestionsSealed)
    (hM2 : 2 ≤ M) (hMN : M ≤ N)
    (hlenN : origQas.length = N) (halen : answers.length = N)
    (hqnd : (origQas.map (fun qa => qa.question)).Nodup)
    (hone : ∀ qa ∈ origQas, qa.answer ≠ "")
    (hane : ∀ a ∈ answers, a ≠ "")
    (htb : toBytes secret = .ok sb) (hfb : fromBytes sb = .ok secret)
    (hind : XorIndep (indepFamilyOf hkdf origQas answers))
    (hseal : with_schemes hkdf N M toBytes nonces secret origQas = .ok C) :
    (M ≤ agreeCountOf origQas answers →
      openSealed hkdf N M fromBytes C (callerQasOf origQas answers) =
        .ok secret) ∧
      (agreeCountOf origQas answers < M →
        openSealed hkdf N M fromBytes C (callerQasOf origQas answers) =
          .err .FailedToDecryptSealedSecret) := by
  obtain ⟨hLnd0, hLind0⟩ := hind
  have hLnd : ((origEntsOf hkdf origQas) ++
      (badEntsOf hkdf origQas answers)).Nodup := hLnd0
  have hLind : ∀ u ∈ ((origEntsOf hkdf origQas) ++
      (badEntsOf hkdf origQas answers)).toFinset.powerset,
      u ≠ ∅ → xorFinset u ≠ 0 := hLind0
  have hoEnd : (origEntsOf hkdf origQas).Nodup := (List.nodup_append.mp hLnd).1
  have hbEnd : (badEntsOf hkdf origQas answers).Nodup :=
    (List.nodup_append.mp hLnd).2.1
  have hdisj : List.Disjoint (origEntsOf hkdf origQas)
      (badEntsOf hkdf origQas answers) := (List.nodup_append.mp hLnd).2.2
  have hM1 : 1 ≤ M := by omega
  have hNab : (agreeBoolsOf origQas answers).length = N := by
    simp [agreeBoolsOf, List.length_zipWith, hlenN, halen]
  have hcallerlen : (callerQasOf origQas answers).length = N := by
    simp [callerQasOf, List.length_zipWith, hlenN, halen]
  have hcElen : (callerEntsOf hkdf origQas answers).length = N := by
    simp only [callerEntsOf, List.length_map]
    exact hcallerlen
  have hsubO : (origEntsOf hkdf origQas).toFinset ⊆
      ((origEntsOf hkdf origQas) ++
        (badEntsOf hkdf origQas answers)).toFinset := by
    intro v hv
    exact List.mem_toFinset.mpr
      (List.mem_append_left _ (List.mem_toFinset.mp hv))
  have hinjO := xorList_inj_on_combinations (M := M) hLind hoEnd hsubO
  have hsealD := with_schemes_ok hkdf toBytes nonces secret hlenN hqnd hone
    hM1 hMN hoEnd hinjO htb
  have hCeq :
      ({ security_questions_and_salts :=
           origQas.map SecurityQuestionAnswerAndSalt.question_and_salt
         encryptions :=
           sealBoxesOf M (origEntsOf hkdf origQas) nonces sb } :
        SecurityQuestionsSealed) = C := by
    have h := hsealD.symm.trans hseal
    injection h
  subst hCeq
  -- canonical agreement makes caller and seal entropies coincide
  have hpf : ∀ (o : SecurityQuestionAnswerAndSalt) (a : String),
      answersAgree o a = true →
      entOf hkdf { question := o.question, answer := a, salt := o.salt } =
        entOf hkdf o := by
    intro o a hpa
    have htrim : trim_answer a = trim_answer o.answer :=
      of_decide_eq_true hpa
    unfold entOf
    rw [htrim]
  have hAgreeSel :
      maskSel (agreeBoolsOf origQas answers)
          (callerEntsOf hkdf origQas answers) =
        maskSel (agreeBoolsOf origQas answers) (origEntsOf hkdf origQas) := by
    have h := maskSel_zip_congr (fun o a => answersAgree o a)
      (fun o a =>
        entOf hkdf { question := o.question, answer := a, salt := o.salt })
      (entOf hkdf) hpf origQas answers (hlenN.trans halen.symm)
    rw [callerEntsOf_eq_zipWith]
    exact h
  have hablen : (agreeBoolsOf origQas answers).length =
      (callerEntsOf hkdf origQas answers).length := by rw [hNab, hcElen]
  have hsplit : ∀ v ∈ callerEntsOf hkdf origQas answers,
      v ∈ origEntsOf hkdf origQas ∨
        v ∈ badEntsOf hkdf origQas answers := by
    intro v hv
    rcases mem_maskSel_split _ _ v hablen hv with h | h
    · left
      rw [hAgreeSel] at h
      exact (maskSel_sublist _ _).subset h
    · right
      exact h
  have hACnd : (maskSel (agreeBoolsOf origQas answers)
      (callerEntsOf hkdf origQas answers)).Nodup := by
    rw [hAgreeSel]
    exact List.Nodup.sublist (maskSel_sublist _ _) hoEnd
  have hcEnd : (callerEntsOf hkdf origQas answers).Nodup := by
    refine nodup_of_maskSel_parts (agreeBoolsOf origQas answers) _ hablen
      hACnd hbEnd ?_
    intro v hv1 hv2
    rw [hAgreeSel] at hv1
    exact hdisj ((maskSel_sublist _ _).subset hv1) hv2
  have hsubC : (callerEntsOf hkdf origQas answers).toFinset ⊆
      ((origEntsOf hkdf origQas) ++
        (badEntsOf hkdf origQas answers)).toFinset := by
    intro v hv
    refine List.mem_toFinset.mpr ?_
    rcases hsplit v (List.mem_toFinset.mp hv) with h | h
    · exact List.mem_append_left _ h
    · exact List.mem_append_right _ h
  have hinjC := xorList_inj_on_combinations (M := M) hLind hcEnd hsubC
  have hanec : ∀ qa ∈ callerQasOf origQas answers, qa.answer ≠ "" := by
    intro qa hqa
    obtain ⟨o, _, _, _, hmem⟩ := mem_callerQasOf qa hqa
    exact hane _ hmem
  have hkeysC := derive_keys_from_qas_ok hcallerlen hanec hM1 hMN hcEnd hinjC
  have hrel : are_all_answers_relevant
      { security_questions_and_salts :=
          origQas.map SecurityQuestionAnswerAndSalt.question_and_salt
        encryptions := sealBoxesOf M (origEntsOf hkdf origQas) nonces sb }
      (callerQasOf origQas answers) = .ok () := by
    refine are_all_answers_relevant_ok _ _ ?_
    intro qa hqa
    obtain ⟨o, ho, hq, _, _⟩ := mem_callerQasOf qa hqa
    exact ⟨o.question_and_salt,
      List.mem_map_of_mem SecurityQuestionAnswerAndSalt.question_and_salt ho,
      hq.symm⟩
  have hopen : openSealed hkdf N M fromBytes
      { security_questions_and_salts :=
          origQas.map SecurityQuestionAnswerAndSalt.question_and_salt
        encryptions := sealBoxesOf M (origEntsOf hkdf origQas) nonces sb }
      (callerQasOf origQas answers) =
      open_loop fromBytes
        ((subsetKeysOf M (callerEntsOf hkdf origQas answers)).flatMap
          (fun key =>
            (sealBoxesOf M (origEntsOf hkdf origQas) nonces sb).map
              (fun box => (key, box)))) none := by
    unfold openSealed
    rw [hrel]
    show open_after_relevance hkdf N M fromBytes _ _ = _
    unfold open_after_relevance
    rw [hkeysC]
    rfl
  have hboxpl : ∀ b ∈ sealBoxesOf M (origEntsOf hkdf origQas) nonces sb,
      b.plaintext = sb := by
    intro b hb
    obtain ⟨p, _, rfl⟩ := List.mem_map.mp hb
    rfl
  have hboxkey : ∀ b ∈ sealBoxesOf M (origEntsOf hkdf origQas) nonces sb,
      b.key ∈ subsetKeysOf M (origEntsOf hkdf origQas) := by
    intro b hb
    obtain ⟨p, hp, rfl⟩ := List.mem_map.mp hb
    obtain ⟨i, k⟩ := p
    exact (List.of_mem_zip hp).2
  have hpairsfacts : ∀ p ∈ (subsetKeysOf M
      (callerEntsOf hkdf origQas answers)).flatMap
        (fun key =>
          (sealBoxesOf M (origEntsOf hkdf origQas) nonces sb).map
            (fun box => (key, box))),
      p.1 ∈ subsetKeysOf M (callerEntsOf hkdf origQas answers) ∧
        p.2 ∈ sealBoxesOf M (origEntsOf hkdf origQas) nonces sb := by
    intro p hp
    obtain ⟨k, hk, hpm⟩ := List.mem_flatMap.mp hp
    obtain ⟨box, hbox, rfl⟩ := List.mem_map.mp hpm
    exact ⟨hk, hbox⟩
  constructor
  · -- success: at least M canonical agreements
    intro hge
    have hmono := count_true_zipWith_le (fun o a => answersAgree o a)
      (fun o a => decide (entOf hkdf o =
        entOf hkdf { question := o.question, answer := a, salt := o.salt }))
      (fun o a hpa => decide_eq_true (hpf o a hpa).symm) origQas answers
    have hentcnt : M ≤ (List.zipWith (fun x y => decide (x = y))
        (origEntsOf hkdf origQas)
        (callerEntsOf hkdf origQas answers)).count true := by
      have h1 : List.zipWith (fun x y => decide (x = y))
          (origEntsOf hkdf origQas) (callerEntsOf hkdf origQas answers) =
          List.zipWith (fun o a => decide (entOf hkdf o =
            entOf hkdf { question := o.question, answer := a, salt := o.salt }))
            origQas answers := by
        rw [callerEntsOf_eq_zipWith]
        show List.zipWith (fun x y => decide (x = y))
          (origQas.map (entOf hkdf)) _ = _
        rw [List.zipWith_map_left, zipWith_same_left]
      rw [h1]
      exact Nat.le_trans hge hmono
    obtain ⟨c, hcO, hcC, hclen⟩ := exists_common_sublist_of_agree
      (origEntsOf hkdf origQas) (callerEntsOf hkdf origQas answers) M hentcnt
    have hkO : xorList c ∈ subsetKeysOf M (origEntsOf hkdf origQas) :=
      List.mem_map_of_mem xorList
        ((mem_combinations _ _ _).mpr ⟨hcO, hclen⟩)
    have hkC : xorList c ∈
        subsetKeysOf M (callerEntsOf hkdf origQas answers) :=
      List.mem_map_of_mem xorList
        ((mem_combinations _ _ _).mpr ⟨hcC, hclen⟩)
    obtain ⟨p0, hp0, hp0k⟩ := exists_mem_zip_snd
      (List.range (subsetKeysOf M (origEntsOf hkdf origQas)).length)
      (subsetKeysOf M (origEntsOf hkdf origQas)) (xorList c)
      (by rw [List.length_range]) hkO
    rw [hopen]
    refine open_loop_success fromBytes secret sb _ none
      (fun p hp => hboxpl p.2 (hpairsfacts p hp).2) hfb ?_
    refine ⟨(xorList c, encryptScheme sb p0.2 (nonces p0.1)),
      List.mem_flatMap.mpr ⟨xorList c, hkC,
        List.mem_map.mpr ⟨encryptScheme sb p0.2 (nonces p0.1),
          List.mem_map_of_mem _ hp0, rfl⟩⟩, ?_⟩
    exact hp0k
  · -- failure: fewer than M canonical agreements
    intro hlt
    have hacount : (maskSel (agreeBoolsOf origQas answers)
        (callerEntsOf hkdf origQas answers)).length =
        agreeCountOf origQas answers :=
      length_maskSel _ _ hablen
    have hdiffkeys : ∀ kc ∈ subsetKeysOf M
        (callerEntsOf hkdf origQas answers),
        ∀ ks ∈ subsetKeysOf M (origEntsOf hkdf origQas), kc ≠ ks := by
      intro kc hkc ks hks heq
      obtain ⟨c', hc', rfl⟩ := List.mem_map.mp hkc
      obtain ⟨c, hc, rfl⟩ := List.mem_map.mp hks
      have hc'sub := ((mem_combinations _ _ _).mp hc').1
      have hc'len := ((mem_combinations _ _ _).mp hc').2
      have hcsub := ((mem_combinations _ _ _).mp hc).1
      have hc'nd := List.Nodup.sublist hc'sub hcEnd
      have hcnd := List.Nodup.sublist hcsub hoEnd
      have heq' : xorFinset c'.toFinset = xorFinset c.toFinset := by
        rw [← xorList_eq_xorFinset hc'nd, ← xorList_eq_xorFinset hcnd, heq]
      have hsubc' : c'.toFinset ⊆
          ((origEntsOf hkdf origQas) ++
            (badEntsOf hkdf origQas answers)).toFinset := by
        intro v hv
        exact hsubC (List.mem_toFinset.mpr
          (hc'sub.subset (List.mem_toFinset.mp hv)))
      have hsubc : c.toFinset ⊆
          ((origEntsOf hkdf origQas) ++
            (badEntsOf hkdf origQas answers)).toFinset := by
        intro v hv
        exact hsubO (List.mem_toFinset.mpr
          (hcsub.subset (List.mem_toFinset.mp hv)))
      have hfin : c'.toFinset = c.toFinset :=
        xorFinset_inj_of_indep hLind hsubc' hsubc heq'
      have hsubAC : c'.toFinset ⊆ (maskSel (agreeBoolsOf origQas answers)
          (callerEntsOf hkdf origQas answers)).toFinset := by
        intro v hv
        have hvc' : v ∈ c' := List.mem_toFinset.mp hv
        have hvO : v ∈ origEntsOf hkdf origQas :=
          hcsub.subset (List.mem_toFinset.mp (hfin ▸ hv))
        have hvC : v ∈ callerEntsOf hkdf origQas answers := hc'sub.subset hvc'
        rcases mem_maskSel_split _ _ v hablen hvC with h | h
        · exact List.mem_toFinset.mpr h
        · exact absurd h (hdisj hvO)
      have hcard : M ≤ agreeCountOf origQas answers := by
        calc M = c'.length := hc'len.symm
          _ = c'.toFinset.card := (List.toFinset_card_of_nodup hc'nd).symm
          _ ≤ (maskSel (agreeBoolsOf origQas answers)
              (callerEntsOf hkdf origQas answers)).toFinset.card :=
            Finset.card_le_card hsubAC
          _ ≤ (maskSel (agreeBoolsOf origQas answers)
              (callerEntsOf hkdf origQas answers)).length :=
            List.toFinset_card_le _
          _ = agreeCountOf origQas answers := hacount
      omega
    rw [hopen]
    refine open_loop_all_fail fromBytes _ ?_
    intro p hp
    obtain ⟨hp1, hp2⟩ := hpairsfacts p hp
    intro he
    exact hdiffkeys p.1 hp1 p.2.key (hboxkey p.2 hp2) he.symm

/-! Claim C3: the empty-answer check and canonicalization. -/

/-- Claim C3 counterexample: the answer `"!"` canonicalizes to the empty
string, yet `bytes_from_answer` accepts it (returning empty input keying
material) instead of reporting the empty-answer error — the emptiness check
runs on the raw answer, before canonicalization. -/
theorem C3_counterexample :
    trim_answer "!" = "" ∧
      bytes_from_answer "!" = Except.ok ([] : List Nat) := by
  exact ⟨rfl, rfl⟩

/-- Claim C3, amended: the per-question entropy derivation reports the
empty-answer error exactly when the raw answer string is empty; a raw
nonempty answer is always accepted, with the UTF-8 bytes of its
canonicalized (possibly empty) form as input keying material. -/
theorem C3_amended (a : String) :
    (bytes_from_answer a =
        Except.error Error.AnswersToSecurityQuestionsCannotBeEmpty ↔
      a = "") ∧
      (a ≠ "" → bytes_from_answer a = .ok (utf8Encode (trim_answer a))) := by
  constructor
  · constructor
    · intro h
      by_cases ha : a = ""
      · exact ha
      · simp [bytes_from_answer, ha] at h
    · intro ha; simp [bytes_from_answer, ha]
  · intro ha; simp [bytes_from_answer, ha]

/-- Witness for `C3_amended` at the concrete answer `"x"`. -/
theorem C3_amended_witness :
    bytes_from_answer "x" = .ok (utf8Encode (trim_answer "x")) :=
  (C3_amended "x").2 (by decide)

/-! Claim C4: which (N, M) parameter checks key derivation performs. -/

/-- Claim C4 counterexample: the parameter pair (N, M) = (2, 1) violates
`M ≥ 2`, yet key derivation succeeds (returning the two singleton-subset
keys) instead of returning the
questions-must-be-greater-than-or-equal-answers error. -/
theorem C4_counterexample :
    derive_encryption_keys_from 2 1 [1, 2] = .ok [1, 2] ∧
      n_choose_m 2 1 = .ok 2 := by
  exact ⟨rfl, rfl⟩

/-- Claim C4, amended: key derivation enforces only `M ≤ N`, not
`M ≥ 2`. `n_choose_m` returns the
questions-must-be-greater-than-or-equal-answers error carrying
(questions, answers) exactly when `M > N` and otherwise computes C(N, M);
`derive_encryption_keys_from` guards `M ≤ N` by an assertion that panics
(so the error itself never surfaces from it), `M = 0` panics on the
reduce-unwrap of the empty combination, and `M = 1` derivations succeed. -/
theorem C4_amended :
    (∀ N M : Nat, M > N →
        n_choose_m N M =
          .error (.QuestionsMustBeGreaterThanOrEqualAnswers N M)) ∧
      (∀ N M : Nat, M ≤ N → n_choose_m N M = .ok (Nat.choose N M)) ∧
      (∀ (N M : Nat) (entropies : List Nat), M > N →
        derive_encryption_keys_from N M entropies = .panicked) ∧
      (∀ (N : Nat) (entropies : List Nat),
        derive_encryption_keys_from N 0 entropies = .panicked) ∧
      derive_encryption_keys_from 2 1 [1, 2] = .ok [1, 2] := by
  refine ⟨?_, ?_, ?_, ?_, rfl⟩
  · intro N M h; simp [n_choose_m, h]
  · intro N M h
    simp [n_choose_m, Nat.not_lt.mpr h, n_choose_m_fold_eq_choose M N h]
  · intro N M entropies h
    simp [derive_encryption_keys_from, Nat.not_le.mpr h]
  · intro N entropies
    simp [derive_encryption_keys_from, Nat.zero_le,
      encryption_keys_from_xor_between_all_combinations, combinations,
      collectOptions, key_from_combination_by_xor]

/-- Witness for `C4_amended` at concrete parameters. -/
theorem C4_amended_witness :
    n_choose_m 1 2 =
        .error (.QuestionsMustBeGreaterThanOrEqualAnswers 1 2) ∧
      n_choose_m 3 2 = .ok (Nat.choose 3 2) ∧
      derive_encryption_keys_from 1 2 [7] = .panicked ∧
      derive_encryption_keys_from 5 0 [1, 2, 3] = .panicked :=
  ⟨C4_amended.1 1 2 (by decide), C4_amended.2.1 3 2 (by decide),
    C4_amended.2.2.1 1 2 [7] (by decide), C4_amended.2.2.2.1 5 [1, 2, 3]⟩

/-! Claim C5: what construction of the N-sized collections deduplicates. -/

/-- Claim C5 counterexample: two entries sharing the same question but with
different answers and salts survive construction — the resulting 2-array is
successfully constructed yet does not have pairwise-distinct questions (and
likewise for the question+salt collection with differing salts). -/
theorem C5_counterexample :
    SecurityQuestionsAnswersAndSalts.try_from_iter 2
        [{ question := testQ 0, answer := "a", salt := 0 },
         { question := testQ 0, answer := "b", salt := 7 }] =
      .ok [{ question := testQ 0, answer := "a", salt := 0 },
           { question := testQ 0, answer := "b", salt := 7 }] ∧
      SecurityQuestionsAndSalts.try_from_iter 2
          [{ question := testQ 0, salt := 0 },
           { question := testQ 0, salt := 7 }] =
        .ok [{ question := testQ 0, salt := 0 },
             { question := testQ 0, salt := 7 }] := by
  exact ⟨rfl, rfl⟩

/-- Claim C5, amended: construction deduplicates whole entries (the full
question+answer+salt triple, resp. question+salt pair), not questions: a
successfully constructed N-array has N pairwise-distinct entries with the
same members as the input, construction fails with the count-mismatch error
exactly when fewer or more than N distinct entries remain, and
already-distinct input of length N is returned unchanged — pairwise
distinctness of the questions themselves is not enforced. -/
theorem C5_amended (N : Nat) (l : List SecurityQuestionAnswerAndSalt)
    (ls : List SecurityQuestionAndSalt) :
    (∀ r, SecurityQuestionsAnswersAndSalts.try_from_iter N l = .ok r →
        r.Nodup ∧ r.length = N ∧ ∀ x, x ∈ r ↔ x ∈ l) ∧
      (l.Nodup → l.length = N →
        SecurityQuestionsAnswersAndSalts.try_from_iter N l = .ok l) ∧
      ((indexSetOfList l).length ≠ N →
        SecurityQuestionsAnswersAndSalts.try_from_iter N l =
          .error (.InvalidQuestionsAndAnswersCount N
            (indexSetOfList l).length)) ∧
      (∀ r, SecurityQuestionsAndSalts.try_from_iter N ls = .ok r →
        r.Nodup ∧ r.length = N ∧ ∀ x, x ∈ r ↔ x ∈ ls) ∧
      ((indexSetOfList ls).length ≠ N →
        SecurityQuestionsAndSalts.try_from_iter N ls =
          .error (.InvalidQuestionsAndSaltCount N
            (indexSetOfList ls).length)) := by
  refine ⟨?_, ?_, ?_, ?_, ?_⟩
  · intro r hr
    unfold SecurityQuestionsAnswersAndSalts.try_from_iter at hr
    by_cases h : (indexSetOfList l).length = N
    · simp only [h, if_pos] at hr
      cases hr
      exact ⟨nodup_indexSetOfList l, h, fun x => mem_indexSetOfList x l⟩
    · simp [h] at hr
  · intro hnd hlen
    unfold SecurityQuestionsAnswersAndSalts.try_from_iter
    rw [indexSetOfList_eq_self l hnd]
    simp [hlen]
  · intro h
    unfold SecurityQuestionsAnswersAndSalts.try_from_iter
    simp [h]
  · intro r hr
    unfold SecurityQuestionsAndSalts.try_from_iter at hr
    by_cases h : (indexSetOfList ls).length = N
    · simp only [h, if_pos] at hr
      cases hr
      exact ⟨nodup_indexSetOfList ls, h, fun x => mem_indexSetOfList x ls⟩
    · simp [h] at hr
  · intro h
    unfold SecurityQuestionsAndSalts.try_from_iter
    simp [h]

/-- Witness for `C5_amended` at concrete inputs. -/
theorem C5_amended_witness :
    ([testQas 0 "a", testQas 1 "b"].Nodup ∧ [testQas 0 "a", testQas 1 "b"].length = 2 ∧
        SecurityQuestionsAnswersAndSalts.try_from_iter 2
          [testQas 0 "a", testQas 1 "b"] = .ok [testQas 0 "a", testQas 1 "b"]) ∧
      SecurityQuestionsAndSalts.try_from_iter 2
          [{ question := testQ 0, salt := 0 }] =
        .error (.InvalidQuestionsAndSaltCount 2 1) :=
  ⟨⟨by decide, by decide,
      (C5_amended 2 [testQas 0 "a", testQas 1 "b"] []).2.1 (by decide)
        (by decide)⟩,
    (C5_amended 2 [] [{ question := testQ 0, salt := 0 }]).2.2.2.2
      (by decide)⟩

/-! Concrete counterexamples for claims C1, C2, C6 and C9. -/

/-- Claim C1 counterexample: the container sealing `[5, 6]` under
`origQas3` (N = 3, M = 2), opened with the container's questions and salts
but every answer empty, agrees with the original answers on zero positions
(fewer than M) — yet `open` fails with the empty-answer error produced by
key derivation, not with the claimed failed-to-decrypt-sealed-secret
error. -/
theorem C1_counterexample :
    with_schemes testHkdf 3 2 toBytesId testNonces [5, 6] origQas3 =
        .ok testSealed3 ∧
      (List.zipWith
          (fun (o c : SecurityQuestionAnswerAndSalt) =>
            decide (trim_answer c.answer = trim_answer o.answer))
          origQas3
          [testQas 0 "", testQas 1 "", testQas 2 ""]).count true = 0 ∧
      openSealed testHkdf 3 2 fromBytesId testSealed3
          [testQas 0 "", testQas 1 "", testQas 2 ""] =
        .err .AnswersToSecurityQuestionsCannotBeEmpty := by
  exact ⟨rfl, by decide, rfl⟩

/-- Claim C2 counterexample: a secret type whose `from_bytes` always fails
(as in the repository's own
`open_sealed_secret_type_fails_to_deserialize_from_bytes` test) seals
successfully, but opening with the exact same question-answer-salt array
returns the failed-to-convert-bytes-to-secret error instead of the original
secret. -/
theorem C2_counterexample :
    with_schemes testHkdf 3 2 toBytesId testNonces [5, 6] origQas3 =
        .ok testSealed3 ∧
      openSealed testHkdf 3 2
          (fun _ => (.error "meant to fail for test" : Except String (List Nat)))
          testSealed3 origQas3 =
        .err (.FailedToConvertBytesToSecret "meant to fail for test") := by
  exact ⟨rfl, rfl⟩

/-- Claim C6 counterexample: a container holding a single ciphertext
(instead of C(3, 2) = 3) is not rejected by `open` — with the correct
answers it decrypts and returns the secret. -/
theorem C6_counterexample :
    testSealedOneBox.encryptions.length = 1 ∧
      n_choose_m 3 2 = .ok 3 ∧ (1 : Nat) ≠ 3 ∧
      openSealed testHkdf 3 2 fromBytesId testSealedOneBox origQas3 =
        .ok [5, 6] := by
  exact ⟨rfl, rfl, by decide, rfl⟩

/-- Claim C9 counterexample: the answers `""` and `"!"` differ only in one
occurrence of a stripped code point and canonicalize to equal (empty)
bytes, yet they do not yield identical entropies: derivation rejects the
raw-empty answer with the empty-answer error while accepting `"!"`. -/
theorem C9_counterexample :
    trim_answer "" = trim_answer "!" ∧
      derive_entropies_from_question_answer_and_salt testHkdf
          { question := testQ 0, answer := "", salt := 0 } =
        .error .AnswersToSecurityQuestionsCannotBeEmpty ∧
      derive_entropies_from_question_answer_and_salt testHkdf
          { question := testQ 0, answer := "!", salt := 0 } =
        .ok 1 := by
  exact ⟨rfl, rfl, rfl⟩

/-! Claim C6: ciphertext count after seal, and what open validates. -/

theorem EncryptionKeys_new_ok_inv {N M : Nat} {ks keys : List Nat}
    (h : EncryptionKeys.new N M ks = .ok keys) :
    keys.Nodup ∧ keys.length = Nat.choose N M := by
  unfold EncryptionKeys.new at h
  split at h
  · exact Except.noConfusion h
  · rename_i exp hch
    have h2 : (if (indexSetOfList ks).length ≠ exp then
        Except.error (Error.InvalidQuestionsAndAnswersCount exp
          (indexSetOfList ks).length)
      else Except.ok (indexSetOfList ks)) = Except.ok keys := h
    split at h2
    · exact Except.noConfusion h2
    · rename_i hlen
      injection h2 with hk
      subst hk
      refine ⟨nodup_indexSetOfList ks, ?_⟩
      have hMN : M ≤ N := by
        by_contra hgt
        unfold n_choose_m at hch
        rw [if_pos (by omega)] at hch
        exact Except.noConfusion hch
      rw [n_choose_m_ok hMN] at hch
      injection hch with hexp
      omega

theorem derive_keys_qas_ok_inv {hkdf : Nat → List Nat → List Nat → Nat}
    {N M : Nat} {qas : List SecurityQuestionAnswerAndSalt} {keys : List Nat}
    (h : derive_encryption_keys_from_questions_answers_and_salts hkdf N M qas =
      .ok keys) :
    keys.Nodup ∧ keys.length = Nat.choose N M := by
  unfold derive_encryption_keys_from_questions_answers_and_salts at h
  split at h
  · exact POutcome.noConfusion h
  · split at h
    · unfold derive_encryption_keys_from at h
      split at h
      · unfold encryption_keys_from_xor_between_all_combinations at h
        split at h
        · exact POutcome.noConfusion h
        · rename_i ks hks
          unfold exceptToP at h
          split at h
          · rename_i res hres
            injection h with hk
            subst hk
            exact EncryptionKeys_new_ok_inv hres
          · exact POutcome.noConfusion h
      · exact POutcome.noConfusion h
    · exact POutcome.noConfusion h

/-- Claim C6, amended: after a successful seal with parameters (N, M) the
container's ordered ciphertext set has exactly C(N, M) elements. (Neither
deserialization nor `open` validates this count — see the
counterexample.) -/
theorem C6_amended {α : Type} {hkdf : Nat → List Nat → List Nat → Nat}
    {N M : Nat} {toBytes : α → Except String (List Nat)} {nonces : Nat → Nat}
    {secret : α} {qas : List SecurityQuestionAnswerAndSalt}
    {C : SecurityQuestionsSealed}
    (h : with_schemes hkdf N M toBytes nonces secret qas = .ok C) :
    C.encryptions.length = Nat.choose N M := by
  unfold with_schemes at h
  split at h
  · exact POutcome.noConfusion h
  · split at h
    · exact POutcome.noConfusion h
    · exact POutcome.noConfusion h
    · rename_i keys hkd
      split at h
      · exact POutcome.noConfusion h
      · rename_i sbv htb
        injection h with hC
        subst hC
        obtain ⟨hknd, hklen⟩ := derive_keys_qas_ok_inv hkd
        show (indexSetOfList ((List.zip (List.range keys.length) keys).map
          (fun p => encryptScheme sbv p.2 (nonces p.1)))).length =
          Nat.choose N M
        have hproj : ((List.zip (List.range keys.length) keys).map
            (fun p => encryptScheme sbv p.2 (nonces p.1))).map
              (fun b => b.key) = keys := by
          rw [List.map_map]
          exact List.map_snd_zip _ _ (by rw [List.length_range])
        have hboxnd : ((List.zip (List.range keys.length) keys).map
            (fun p => encryptScheme sbv p.2 (nonces p.1))).Nodup :=
          List.Nodup.of_map (fun b => b.key) (by rw [hproj]; exact hknd)
        rw [indexSetOfList_eq_self _ hboxnd, List.length_map,
          List.length_zip, List.length_range, Nat.min_self]
        exact hklen

/-- Witness for `C6_amended` at the concrete seal of the fixtures. -/
theorem C6_amended_witness :
    testSealed3.encryptions.length = Nat.choose 3 2 :=
  C6_amended (rfl : with_schemes testHkdf 3 2 toBytesId testNonces [5, 6]
    origQas3 = .ok testSealed3)

/-! Claim C7: error priority of the cross-product loop of open. -/

/-- Claim C7 (confirmed): when no (key, ciphertext) pair of `open`'s
cross-product loop yields both a successful AEAD decryption and a
successful reconstruction, `open` returns the last reconstruction failure
as failed-to-convert-bytes-to-secret (carrying the underlying reason) if
some decryption succeeded, and failed-to-decrypt-sealed-secret
otherwise. -/
theorem C7_open_error_priority {α : Type}
    (hkdf : Nat → List Nat → List Nat → Nat) (N M : Nat)
    (fromBytes : List Nat → Except String α)
    (sealed : SecurityQuestionsSealed)
    (qas : List SecurityQuestionAnswerAndSalt) (keys : List Nat)
    (hrel : are_all_answers_relevant sealed qas = .ok ())
    (hkeys : derive_encryption_keys_from_questions_answers_and_salts hkdf N M
      qas = .ok keys)
    (hnosucc : ∀ p ∈ keys.flatMap
        (fun key => sealed.encryptions.map (fun box => (key, box))),
      ∀ pl, decryptScheme p.2 p.1 = .ok pl → ∃ m, fromBytes pl = .error m) :
    openSealed hkdf N M fromBytes sealed qas =
      match (reconstruction_failures fromBytes
          (keys.flatMap
            (fun key =>
              sealed.encryptions.map (fun box => (key, box))))).getLast? with
      | some m => .err (.FailedToConvertBytesToSecret m)
      | none => .err .FailedToDecryptSealedSecret := by
  have hopen : openSealed hkdf N M fromBytes sealed qas =
      open_loop fromBytes
        (keys.flatMap
          (fun key => sealed.encryptions.map (fun box => (key, box))))
        none := by
    unfold openSealed
    rw [hrel]
    show open_after_relevance hkdf N M fromBytes _ _ = _
    unfold open_after_relevance
    rw [hkeys]
  rw [hopen, open_loop_no_success fromBytes _ none hnosucc]

/-- Witness for `C7_open_error_priority`: a concrete container whose
sealed bytes never reconstruct — every AEAD decryption under the matching
key succeeds, every reconstruction fails, and open surfaces the last
reconstruction failure. -/
theorem C7_open_error_priority_witness :
    openSealed testHkdf 3 2
        (fun _ => (.error "meant to fail for test" : Except String (List Nat)))
        testSealed3 origQas3 =
      .err (.FailedToConvertBytesToSecret "meant to fail for test") := by
  have h := C7_open_error_priority testHkdf 3 2
    (fun _ => (.error "meant to fail for test" : Except String (List Nat)))
    testSealed3 origQas3 [6, 34, 36] rfl rfl
    (fun p _ pl _ => ⟨"meant to fail for test", rfl⟩)
  exact h

/-! Claim C8: the unrelated-question check. -/

/-- Claim C8 (confirmed): if the caller's array contains an entry whose
question is not structurally equal to any saved question, `open` fails with
unrelated-question-provided carrying the display string of the first such
question — regardless of the KDF, the secret codec, every answer and every
salt (so before any key derivation or decryption, independent of answer
correctness, and comparing questions only). -/
theorem C8_unrelated_question {α : Type}
    (hkdf : Nat → List Nat → List Nat → Nat) (N M : Nat)
    (fromBytes : List Nat → Except String α)
    (sealed : SecurityQuestionsSealed)
    (pre : List SecurityQuestionAnswerAndSalt)
    (qa0 : SecurityQuestionAnswerAndSalt)
    (post : List SecurityQuestionAnswerAndSalt)
    (hpre : ∀ qa ∈ pre, ∃ saved ∈ sealed.security_questions_and_salts,
      saved.question = qa.question)
    (hqa0 : ∀ saved ∈ sealed.security_questions_and_salts,
      saved.question ≠ qa0.question) :
    openSealed hkdf N M fromBytes sealed (pre ++ qa0 :: post) =
      .err (.UnrelatedQuestionProvided qa0.question.toDisplay) := by
  unfold openSealed are_all_answers_relevant
  rw [find?_first_offender _ pre qa0 post ?_ ?_]
  · intro qa hqa
    obtain ⟨saved, hsaved, he⟩ := hpre qa hqa
    simp only [Bool.not_eq_false']
    exact List.any_eq_true.mpr ⟨saved, hsaved, decide_eq_true he⟩
  · simp only [Bool.not_eq_true']
    refine List.any_eq_false.mpr ?_
    intro saved hsaved
    simp only [decide_eq_true_eq]
    exact hqa0 saved hsaved

/-- Witness for `C8_unrelated_question` at a concrete container and caller
array (first entry relevant, second entry unknown question). -/
theorem C8_unrelated_question_witness :
    openSealed testHkdf 3 2 fromBytesId testSealed3
        ([testQas 0 "whatever"] ++ testQas 9 "x" :: []) =
      .err (.UnrelatedQuestionProvided (testQ 9).toDisplay) :=
  C8_unrelated_question testHkdf 3 2 fromBytesId testSealed3
    [testQas 0 "whatever"] (testQas 9 "x") []
    (by
      intro qa hqa
      rcases List.mem_singleton.mp hqa with rfl
      exact ⟨{ question := testQ 0, salt := 0 },
        List.mem_cons_self _ _, rfl⟩)
    (by decide)

/-! Claim C10: the relevance check inspects questions only. -/

theorem any_replaceSealedSalts (f : SecurityQuestionAndSalt → Nat)
    (sqs : List SecurityQuestionAndSalt) (q : SecurityQuestion) :
    ((sqs.map (fun e =>
        ({ question := e.question, salt := f e } :
          SecurityQuestionAndSalt))).any
        (fun saved => decide (saved.question = q))) =
      sqs.any (fun saved => decide (saved.question = q)) := by
  rw [List.any_map]
  rfl

theorem relevance_salt_invariance (f : SecurityQuestionAndSalt → Nat)
    (g : SecurityQuestionAnswerAndSalt → Nat)
    (sealed : SecurityQuestionsSealed) :
    ∀ (qas : List SecurityQuestionAnswerAndSalt),
      are_all_answers_relevant (replaceSealedSalts f sealed)
        (replaceAnswerSalts g qas) = are_all_answers_relevant sealed qas := by
  intro qas
  induction qas with
  | nil => rfl
  | cons qa rest ih =>
      unfold are_all_answers_relevant replaceAnswerSalts replaceSealedSalts
      rw [List.map_cons]
      cases hb : sealed.security_questions_and_salts.any
          (fun saved => decide (saved.question = qa.question)) with
      | true =>
          rw [List.find?_cons_of_neg _ (by
              rw [any_replaceSealedSalts f _ qa.question, hb]
              simp),
            List.find?_cons_of_neg _ (by rw [hb]; simp)]
          exact ih
      | false =>
          rw [List.find?_cons_of_pos _ (by
              rw [any_replaceSealedSalts f _ qa.question, hb]
              rfl),
            List.find?_cons_of_pos _ (by rw [hb]; rfl)]

/-- Claim C10 (confirmed): `open`'s relevance check only requires each
caller question to occur among the saved questions — an array whose entries
repeat a question (with different answers or salts) passes the check and
`open` proceeds to key derivation — and the check's outcome never depends
on the stored or caller-supplied salts. -/
theorem C10_relevance_questions_only {α : Type}
    (hkdf : Nat → List Nat → List Nat → Nat) (N M : Nat)
    (fromBytes : List Nat → Except String α)
    (sealed : SecurityQuestionsSealed)
    (qas : List SecurityQuestionAnswerAndSalt)
    (f : SecurityQuestionAndSalt → Nat)
    (g : SecurityQuestionAnswerAndSalt → Nat) :
    ((∀ qa ∈ qas, ∃ saved ∈ sealed.security_questions_and_salts,
        saved.question = qa.question) →
      are_all_answers_relevant sealed qas = .ok () ∧
        openSealed hkdf N M fromBytes sealed qas =
          open_after_relevance hkdf N M fromBytes sealed qas) ∧
      are_all_answers_relevant (replaceSealedSalts f sealed)
          (replaceAnswerSalts g qas) =
        are_all_answers_relevant sealed qas := by
  constructor
  · intro h
    have hrel := are_all_answers_relevant_ok sealed qas h
    refine ⟨hrel, ?_⟩
    unfold openSealed
    rw [hrel]
  · exact relevance_salt_invariance f g sealed qas

/-- Witness for `C10_relevance_questions_only`: a caller array repeating
question 0 twice with different answers and salts (none of which are the
stored salts) passes the relevance check of the concrete container. -/
theorem C10_relevance_questions_only_witness :
    are_all_answers_relevant testSealed3
        [{ question := testQ 0, answer := "x", salt := 77 },
         { question := testQ 0, answer := "y", salt := 88 },
         { question := testQ 1, answer := "z", salt := 99 }] = .ok () ∧
      openSealed testHkdf 3 2 fromBytesId testSealed3
          [{ question := testQ 0, answer := "x", salt := 77 },
           { question := testQ 0, answer := "y", salt := 88 },
           { question := testQ 1, answer := "z", salt := 99 }] =
        open_after_relevance testHkdf 3 2 fromBytesId testSealed3
          [{ question := testQ 0, answer := "x", salt := 77 },
           { question := testQ 0, answer := "y", salt := 88 },
           { question := testQ 1, answer := "z", salt := 99 }] :=
  (C10_relevance_questions_only testHkdf 3 2 fromBytesId testSealed3
    [{ question := testQ 0, answer := "x", salt := 77 },
     { question := testQ 0, answer := "y", salt := 88 },
     { question := testQ 1, answer := "z", salt := 99 }]
    (fun _ => 0) (fun _ => 0)).1
    (by
      intro qa hqa
      rcases List.mem_cons.mp hqa with rfl | hqa'
      · exact ⟨{ question := testQ 0, salt := 0 },
          List.mem_cons_self _ _, rfl⟩
      rcases List.mem_cons.mp hqa' with rfl | hqa''
      · exact ⟨{ question := testQ 0, salt := 0 },
          List.mem_cons_self _ _, rfl⟩
      rcases List.mem_cons.mp hqa'' with rfl | hqa'''
      · exact ⟨{ question := testQ 1, salt := 1 },
          List.mem_cons_of_mem _ (List.mem_cons_self _ _), rfl⟩
      · cases hqa''')

/-! Claim C9: the canonicalization algorithm. -/

theorem mem_trimmed_iff (c : Char) :
    c ∈ SECURITY_QUESTIONS_TRIMMED_CHARS ↔
      c.toNat ∈ [0x20, 0x9, 0xA, 0x2E, 0x21, 0x3F, 0x27, 0x22, 0x2018,
        0x2019, 0xFF07] := by
  constructor
  · intro h
    simp only [SECURITY_QUESTIONS_TRIMMED_CHARS, List.mem_cons,
      List.not_mem_nil, or_false] at h
    rcases h with rfl | rfl | rfl | rfl | rfl | rfl | rfl | rfl | rfl |
      rfl | rfl <;> decide
  · intro h
    have hc : Char.ofNat c.toNat = c := Char.ofNat_toNat c
    simp only [List.mem_cons, List.not_mem_nil, or_false] at h
    rcases h with h | h | h | h | h | h | h | h | h | h | h <;>
      (rw [← hc, h]; decide)

theorem trimmed_lower_fixed {c : Char}
    (h : c ∈ SECURITY_QUESTIONS_TRIMMED_CHARS) : char_to_lowercase c = c := by
  simp only [SECURITY_QUESTIONS_TRIMMED_CHARS, List.mem_cons,
    List.not_mem_nil, or_false] at h
  rcases h with rfl | rfl | rfl | rfl | rfl | rfl | rfl | rfl | rfl |
    rfl | rfl <;> decide

/-- Claim C9, amended: canonicalization is exactly lowercase-then-strip
(of the eleven listed code points)-then-UTF-8-encode; the concrete example
canonicalizes to "foobarfizzbuzz"; answers differing only in (ASCII) case
or in occurrences of stripped code points canonicalize to equal bytes; and
two such answers yield identical entropies provided both are raw-nonempty
(a raw-empty answer is rejected before canonicalization — see the
counterexample). -/
theorem C9_amended :
    (∀ s : String, utf8Encode (trim_answer s) = specCanonicalize s) ∧
      trim_answer "FoO\nB.a\tR ' ! FiZz ? ‘ B ’ u＇ZZ" =
        "foobarfizzbuzz" ∧
      (∀ s t : String, s.data.map char_to_lowercase =
          t.data.map char_to_lowercase →
        trim_answer s = trim_answer t) ∧
      (∀ (pre post : List Char) (c : Char),
        c ∈ SECURITY_QUESTIONS_TRIMMED_CHARS →
        trim_answer (String.mk (pre ++ c :: post)) =
          trim_answer (String.mk (pre ++ post))) ∧
      (∀ (hkdf : Nat → List Nat → List Nat → Nat) (q : SecurityQuestion)
          (salt : Nat) (a b : String), a ≠ "" → b ≠ "" →
        trim_answer a = trim_answer b →
        derive_entropies_from_question_answer_and_salt hkdf
            { question := q, answer := a, salt := salt } =
          derive_entropies_from_question_answer_and_salt hkdf
            { question := q, answer := b, salt := salt }) := by
  refine ⟨?_, by decide, ?_, ?_, ?_⟩
  · intro s
    unfold trim_answer specCanonicalize
    refine congrArg utf8Encode (congrArg String.mk ?_)
    refine List.filter_congr ?_
    intro c _
    exact decide_eq_decide.mpr (not_congr (mem_trimmed_iff c))
  · intro s t h
    unfold trim_answer
    rw [h]
  · intro pre post c hc
    unfold trim_answer
    refine congrArg String.mk ?_
    rw [List.map_append, List.map_append, List.map_cons,
      List.filter_append, List.filter_append, List.filter_cons,
      trimmed_lower_fixed hc, if_neg (by simpa using hc)]
  · intro hkdf q salt a b ha hb htrim
    rw [derive_entropies_ok hkdf _ ha, derive_entropies_ok hkdf _ hb]
    unfold entOf
    rw [htrim]

/-- Witness for `C9_amended` at concrete answers: ASCII-case variation,
stripped-character insertion and the entropy equality at nonempty
answers. -/
theorem C9_amended_witness :
    trim_answer "AbC" = trim_answer "aBc" ∧
      trim_answer (String.mk ("x".data ++ Char.ofNat 33 :: "y".data)) =
        trim_answer (String.mk ("x".data ++ "y".data)) ∧
      derive_entropies_from_question_answer_and_salt testHkdf
          { question := testQ 0, answer := "A", salt := 0 } =
        derive_entropies_from_question_answer_and_salt testHkdf
          { question := testQ 0, answer := "a!", salt := 0 } :=
  ⟨C9_amended.2.2.1 "AbC" "aBc" (by decide),
    C9_amended.2.2.2.1 "x".data "y".data (Char.ofNat 33) (by decide),
    C9_amended.2.2.2.2 testHkdf (testQ 0) 0 "A" "a!" (by decide) (by decide)
      (by decide)⟩

/-! Claims C1 and C2: threshold fault tolerance and the seal/open
roundtrip. -/

/-- Claim C1, amended: for a secret sealed under an N-array with pairwise
distinct questions and N ≥ M ≥ 2, and a caller N-array over the container's
questions and salts whose answers are all raw-nonempty (a raw-empty answer
instead aborts key derivation with the empty-answer error — see the
counterexample), under the spec's idealizations (the per-question entropies
of HKDF-SHA-256 form a GF(2)-independent family; the secret's byte
conversion round-trips): agreement with the original answers, after
canonicalization, on at least M positions makes open return the original
secret, and agreement on fewer than M positions makes open fail with the
failed-to-decrypt-sealed-secret error. -/
theorem C1_amended {α : Type} (hkdf : Nat → List Nat → List Nat → Nat)
    {N M : Nat} (toBytes : α → Except String (List Nat))
    (fromBytes : List Nat → Except String α) (nonces : Nat → Nat)
    (secret : α) (sb : List Nat)
    (origQas : List SecurityQuestionAnswerAndSalt) (answers : List String)
    (C : SecurityQuestionsSealed)
    (hM2 : 2 ≤ M) (hMN : M ≤ N)
    (hlenN : origQas.length = N) (halen : answers.length = N)
    (hqnd : (origQas.map (fun qa => qa.question)).Nodup)
    (hone : ∀ qa ∈ origQas, qa.answer ≠ "")
    (hane : ∀ a ∈ answers, a ≠ "")
    (htb : toBytes secret = .ok sb) (hfb : fromBytes sb = .ok secret)
    (hind : XorIndep (indepFamilyOf hkdf origQas answers))
    (hseal : with_schemes hkdf N M toBytes nonces secret origQas = .ok C) :
    (M ≤ agreeCountOf origQas answers →
      openSealed hkdf N M fromBytes C (callerQasOf origQas answers) =
        .ok secret) ∧
      (agreeCountOf origQas answers < M →
        openSealed hkdf N M fromBytes C (callerQasOf origQas answers) =
          .err .FailedToDecryptSealedSecret) :=
  threshold_main hkdf toBytes fromBytes nonces secret sb origQas answers C
    hM2 hMN hlenN halen hqnd hone hane htb hfb hind hseal

/-- Witness for `C1_amended`: the concrete (N, M) = (3, 2) seal opened with
two canonically agreeing answers out of three returns the secret. -/
theorem C1_amended_witness :
    openSealed testHkdf 3 2 fromBytesId testSealed3
        (callerQasOf origQas3 ["a", "b", "x"]) = .ok [5, 6] :=
  (C1_amended testHkdf toBytesId fromBytesId testNonces [5, 6] [5, 6]
    origQas3 ["a", "b", "x"] testSealed3 (by decide) (by decide) (by decide)
    (by decide) (by decide) (by decide) (by decide) rfl rfl (by decide)
    (rfl : with_schemes testHkdf 3 2 toBytesId testNonces [5, 6] origQas3 =
      .ok testSealed3)).1 (by decide)

theorem callerQasOf_self :
    ∀ (l : List SecurityQuestionAnswerAndSalt),
      callerQasOf l (l.map (fun qa => qa.answer)) = l := by
  intro l
  induction l with
  | nil => rfl
  | cons qa rest ih =>
      show callerQasOf (qa :: rest) (List.map (fun qa => qa.answer)
        (qa :: rest)) = qa :: rest
      unfold callerQasOf at *
      rw [List.map_cons, List.zipWith_cons_cons, ih]

theorem agreeCount_self :
    ∀ (l : List SecurityQuestionAnswerAndSalt),
      agreeCountOf l (l.map (fun qa => qa.answer)) = l.length := by
  intro l
  induction l with
  | nil => rfl
  | cons qa rest ih =>
      show agreeCountOf (qa :: rest) (List.map (fun qa => qa.answer)
        (qa :: rest)) = (qa :: rest).length
      unfold agreeCountOf agreeBoolsOf at *
      rw [List.map_cons, List.zipWith_cons_cons,
        show answersAgree qa qa.answer = true from decide_eq_true rfl,
        List.count_cons]
      simp [ih]

/-- Claim C2, amended: for every secret whose byte conversion round-trips
(from-bytes inverts to-bytes — a secret type whose from-bytes fails breaks
the roundtrip, as the repository's own test shows; see the counterexample),
and under the spec's idealization that the per-question entropies form a
GF(2)-independent family, opening the container produced by seal with the
exact same question-answer-salt array returns the original secret. -/
theorem C2_amended {α : Type} (hkdf : Nat → List Nat → List Nat → Nat)
    {N M : Nat} (toBytes : α → Except String (List Nat))
    (fromBytes : List Nat → Except String α) (nonces : Nat → Nat)
    (secret : α) (sb : List Nat)
    (origQas : List SecurityQuestionAnswerAndSalt)
    (C : SecurityQuestionsSealed)
    (hM2 : 2 ≤ M) (hMN : M ≤ N) (hlenN : origQas.length = N)
    (hqnd : (origQas.map (fun qa => qa.question)).Nodup)
    (hone : ∀ qa ∈ origQas, qa.answer ≠ "")
    (htb : toBytes secret = .ok sb) (hfb : fromBytes sb = .ok secret)
    (hind : XorIndep (indepFamilyOf hkdf origQas
      (origQas.map (fun qa => qa.answer))))
    (hseal : with_schemes hkdf N M toBytes nonces secret origQas = .ok C) :
    openSealed hkdf N M fromBytes C origQas = .ok secret := by
  have h := (threshold_main hkdf toBytes fromBytes nonces secret sb origQas
    (origQas.map (fun qa => qa.answer)) C hM2 hMN hlenN
    (by rw [List.length_map]; exact hlenN) hqnd hone
    (fun a ha => by
      obtain ⟨qa, hqa, rfl⟩ := List.mem_map.mp ha
      exact hone qa hqa)
    htb hfb hind hseal).1
  rw [callerQasOf_self] at h
  exact h (by rw [agreeCount_self, hlenN]; omega)

/-- Witness for `C2_amended`: the concrete seal of the fixtures opened with
the exact same array returns the secret. -/
theorem C2_amended_witness :
    openSealed testHkdf 3 2 fromBytesId testSealed3 origQas3 = .ok [5, 6] :=
  C2_amended testHkdf toBytesId fromBytesId testNonces [5, 6] [5, 6]
    origQas3 testSealed3 (by decide) (by decide) (by decide) (by decide)
    (by decide) rfl rfl (by decide)
    (rfl : with_schemes testHkdf 3 2 toBytesId testNonces [5, 6] origQas3 =
      .ok testSealed3)

end Svar
